import Mathlib

/-!
Verification of the character-precise source-mapping engine of a markdown
editor/preview pairing (file `src/utils/sourceMapping.ts`).

The TypeScript source is shallowly embedded: strings become `List Char`,
JS character indexing (which yields `undefined` out of range) becomes
`Option Char`, the imperative `while` loops become fuel-indexed structural
recursions (the fuel supplied at the top level is large enough because every
loop iteration strictly advances the source index), and the DOM tree that
the cursor-overlay functions manipulate becomes an inductive tree type.
JS floating-point numbers, which appear only in proportional-fallback
score/offset computations whose exact values none of the verified
properties depend on, are modelled as exact fractions.
-/

/-- JS-style character access: `s[i]` is `undefined` (here `none`) out of range. -/
def getC (s : List Char) (i : Nat) : Option Char := s[i]?

/-- The character class `/[\s\n]/` of the source, restricted to ASCII
whitespace (the verified properties do not depend on the exotic Unicode
space characters JS additionally matches). -/
def jsIsSpace (c : Char) : Prop :=
  c = ' ' ∨ c = '\t' ∨ c = '\n' ∨ c = '\r' ∨ c = '\x0b' ∨ c = '\x0c'

instance (c : Char) : Decidable (jsIsSpace c) :=
  inferInstanceAs (Decidable (c = ' ' ∨ c = '\t' ∨ c = '\n' ∨ c = '\r' ∨ c = '\x0b' ∨ c = '\x0c'))

/-- `/[\s\n]/.test(x)` where `x` may be `undefined`: JS coerces `undefined`
to the string `"undefined"`, which contains no whitespace, so the test is
false. -/
def optIsSpace : Option Char → Prop
  | some c => jsIsSpace c
  | none => False

instance : (o : Option Char) → Decidable (optIsSpace o)
  | some c => inferInstanceAs (Decidable (jsIsSpace c))
  | none => inferInstanceAs (Decidable False)

/-- `/\d/` on a possibly-undefined character (false on `undefined`). -/
def optIsDigit : Option Char → Prop
  | some c => '0' ≤ c ∧ c ≤ '9'
  | none => False

instance : (o : Option Char) → Decidable (optIsDigit o)
  | some c => inferInstanceAs (Decidable ('0' ≤ c ∧ c ≤ '9'))
  | none => inferInstanceAs (Decidable False)

/-- The backtick character (written via its code point 96). -/
def btick : Char := Char.ofNat 96

/-!
## `buildDisplayToSourceMap` (sourceMapping.ts lines 574-630)

The dual-cursor scan.  State: `i` = `sourceIdx`, `j` = `displayIdx`,
`acc` = the `map` array.  The JS code assigns `map[displayIdx] = sourceIdx`
where `displayIdx` always equals `map.length`, so the assignment is an
append.  Every iteration advances `sourceIdx` by at least 1, so fuel
`s.length + 1` never runs out before the `while` condition fails.
In the single-`*`/`_` branch the JS code reads `sourceText[sourceIdx - 1]`;
this is only reached behind the `sourceIdx === 0 ||` short-circuit, and the
truncated `Nat` subtraction below yields the same branch outcome (at
`i = 0` the first disjunct is already true on both sides).
-/

def bdsLoop (s d : List Char) : Nat → Nat → Nat → List Nat → Nat × List Nat
  | 0, i, _, acc => (i, acc)
  | fuel+1, i, j, acc =>
    if j < d.length ∧ i < s.length then
      if (getC s i = some '*' ∧ getC s (i+1) = some '*') ∨
         (getC s i = some '_' ∧ getC s (i+1) = some '_') then
        bdsLoop s d fuel (i+2) j acc
      else if (getC s i = some '*' ∨ getC s i = some '_') ∧
          (i = 0 ∨ optIsSpace (getC s (i-1)) ∨ i = s.length - 1 ∨ optIsSpace (getC s (i+1)) ∨
           getC s (i-1) = some '*' ∨ getC s (i-1) = some '_') then
        bdsLoop s d fuel (i+1) j acc
      else if getC s i = some '~' ∧ getC s (i+1) = some '~' then
        bdsLoop s d fuel (i+2) j acc
      else if getC s i = some btick then
        bdsLoop s d fuel (i+1) j acc
      else if getC s i = getC d j then
        bdsLoop s d fuel (i+1) (j+1) (acc ++ [i])
      else
        bdsLoop s d fuel (i+1) j acc
    else (i, acc)

/-- `buildDisplayToSourceMap(sourceText, displayText)`: run the scan, pad
the remaining display indices with `lastSourcePos`, then push one extra
entry for the after-last-character caret position. -/
def buildDisplayToSourceMap (s d : List Char) : List Nat :=
  let r := bdsLoop s d (s.length + 1) 0 0 []
  let lastSourcePos := if 0 < r.1 then r.1 else 0
  (r.2 ++ List.replicate (d.length - r.2.length) lastSourcePos) ++
    [min (lastSourcePos + 1) s.length]

/-- The table-application step of `getCharacterPositionFromClick`
(lines 685-691): `displayToSourceMap[Math.min(clickOffset, displayToSourceMap.length - 1)] ?? clickOffset`. -/
def clickSourceOffset (sourceText displayText : List Char) (clickOffset : Nat) : Nat :=
  let m := buildDisplayToSourceMap sourceText displayText
  m.getD (min clickOffset (m.length - 1)) clickOffset

/-- `precisePos = start + sourceOffset; return {sourceStart: precisePos, sourceEnd: precisePos}`. -/
def clickPrecisePos (start : Nat) (sourceText displayText : List Char) (clickOffset : Nat) :
    Nat × Nat :=
  let p := start + clickSourceOffset sourceText displayText clickOffset
  (p, p)

/-!
## Spec-modelled dual-cursor scans

`scanSpec` is written from the specification's description of the scan
("if the next source character(s) match a known zero-width syntax token
... advance the source cursor without consuming a display character; else
if source and display characters match, record the mapping and advance
both; else advance the source cursor alone"), restricted to the token set
the code actually recognizes: paired `**`/`__`/`~~` delimiters,
word-boundary-anchored single `*`/`_` emphasis delimiters, and backticks.
It walks the remaining source suffix, remembering the previously consumed
character (`prev`, `none` at the very start).

`scanClaimed` is the same scan with the claim's full token list, adding
line-anchored heading (`#`) / quote (`>`) / list (`-`,`*`,`+` + space)
markers and link brackets (`[`,`]`); it exists to state the claim exactly
as written.
-/

def scanSpec : Nat → List Char → List Char → Option Char → Nat → List Nat → Nat × List Nat
  | 0, _, _, _, pos, acc => (pos, acc)
  | _+1, [], _, _, pos, acc => (pos, acc)
  | _+1, _ :: _, [], _, pos, acc => (pos, acc)
  | fuel+1, c :: rest, dc :: drest, prev, pos, acc =>
    if (c = '*' ∧ rest.head? = some '*') ∨ (c = '_' ∧ rest.head? = some '_') then
      scanSpec fuel rest.tail (dc :: drest) rest.head? (pos + 2) acc
    else if (c = '*' ∨ c = '_') ∧
        (prev = none ∨ optIsSpace prev ∨ rest = [] ∨ optIsSpace rest.head? ∨
         prev = some '*' ∨ prev = some '_') then
      scanSpec fuel rest (dc :: drest) (some c) (pos + 1) acc
    else if c = '~' ∧ rest.head? = some '~' then
      scanSpec fuel rest.tail (dc :: drest) rest.head? (pos + 2) acc
    else if c = btick then
      scanSpec fuel rest (dc :: drest) (some c) (pos + 1) acc
    else if c = dc then
      scanSpec fuel rest drest (some c) (pos + 1) (acc ++ [pos])
    else
      scanSpec fuel rest (dc :: drest) (some c) (pos + 1) acc

/-- The table built from `scanSpec`: recorded mappings, trailing indices
padded by clamping, plus the caret entry. -/
def scanSpecTable (s d : List Char) : List Nat :=
  let r := scanSpec (s.length + 1) s d none 0 []
  (r.2 ++ List.replicate (d.length - r.2.length) r.1) ++ [min (r.1 + 1) s.length]

def scanClaimed : Nat → List Char → List Char → Option Char → Nat → List Nat → Nat × List Nat
  | 0, _, _, _, pos, acc => (pos, acc)
  | _+1, [], _, _, pos, acc => (pos, acc)
  | _+1, _ :: _, [], _, pos, acc => (pos, acc)
  | fuel+1, c :: rest, dc :: drest, prev, pos, acc =>
    if (c = '*' ∧ rest.head? = some '*') ∨ (c = '_' ∧ rest.head? = some '_') then
      scanClaimed fuel rest.tail (dc :: drest) rest.head? (pos + 2) acc
    else if (c = '*' ∨ c = '_') ∧
        (prev = none ∨ optIsSpace prev ∨ rest = [] ∨ optIsSpace rest.head? ∨
         prev = some '*' ∨ prev = some '_') then
      scanClaimed fuel rest (dc :: drest) (some c) (pos + 1) acc
    else if c = '~' ∧ rest.head? = some '~' then
      scanClaimed fuel rest.tail (dc :: drest) rest.head? (pos + 2) acc
    else if c = btick then
      scanClaimed fuel rest (dc :: drest) (some c) (pos + 1) acc
    else if (c = '#' ∨ c = '>') ∧ (prev = none ∨ prev = some '\n') then
      scanClaimed fuel rest (dc :: drest) (some c) (pos + 1) acc
    else if (c = '-' ∨ c = '*' ∨ c = '+') ∧ (prev = none ∨ prev = some '\n') ∧
        rest.head? = some ' ' then
      scanClaimed fuel rest.tail (dc :: drest) rest.head? (pos + 2) acc
    else if c = '[' ∨ c = ']' then
      scanClaimed fuel rest (dc :: drest) (some c) (pos + 1) acc
    else if c = dc then
      scanClaimed fuel rest drest (some c) (pos + 1) (acc ++ [pos])
    else
      scanClaimed fuel rest (dc :: drest) (some c) (pos + 1) acc

def scanClaimedTable (s d : List Char) : List Nat :=
  let r := scanClaimed (s.length + 1) s d none 0 []
  (r.2 ++ List.replicate (d.length - r.2.length) r.1) ++ [min (r.1 + 1) s.length]

/-- The previously consumed source character at index `i` (`none` at 0). -/
def prevAt (s : List Char) (i : Nat) : Option Char :=
  if i = 0 then none else getC s (i - 1)

/-!
## `stripMarkdownSyntax` and `findTextInSource` (lines 234-370)

`leadsList needle hay` is `needle.isPrefixOf hay`; `idxOfList` is JS
`String.indexOf` (first match index, `none` for `-1`); `idxOfFrom` is
`indexOf(c, from)`.  `stripLoop` embeds the `while` loop of
`stripMarkdownSyntax` (the original name of `stripMarkdown` below); again
every iteration advances `i` by at least 1, so fuel `t.length + 1`
suffices.  `skipHS` is the inner `while (text[i]==='#'||text[i]===' ')`,
`skipDig` the inner `while (/\d/.test(text[j]))`.
-/

def leadsList : List Char → List Char → Bool
  | [], _ => true
  | _ :: _, [] => false
  | a :: as, b :: bs => a == b && leadsList as bs

def idxOfList : List Char → List Char → Option Nat
  | [], needle => if leadsList needle [] then some 0 else none
  | c :: tl, needle =>
      if leadsList needle (c :: tl) then some 0
      else (idxOfList tl needle).map (· + 1)

def idxOfFrom (t : List Char) (i : Nat) (c : Char) : Option Nat :=
  ((t.drop i).findIdx? (· == c)).map (i + ·)

def skipHS (t : List Char) : Nat → Nat → Nat
  | 0, i => i
  | fuel+1, i =>
    if getC t i = some '#' ∨ getC t i = some ' ' then skipHS t fuel (i+1) else i

def skipDig (t : List Char) : Nat → Nat → Nat
  | 0, j => j
  | fuel+1, j => if optIsDigit (getC t j) then skipDig t fuel (j+1) else j

def stripLoop (t : List Char) : Nat → Nat → List Char → List Nat → List Char × List Nat
  | 0, _, res, omap => (res, omap)
  | fuel+1, i, res, omap =>
    if i < t.length then
      if (getC t i = some '*' ∧ getC t (i+1) = some '*') ∨
         (getC t i = some '_' ∧ getC t (i+1) = some '_') then
        stripLoop t fuel (i+2) res omap
      else if (getC t i = some '*' ∨ getC t i = some '_') ∧
          (i = 0 ∨ optIsSpace (getC t (i-1)) ∨ i = t.length - 1 ∨
           optIsSpace (getC t (i+1))) then
        stripLoop t fuel (i+1) res omap
      else if getC t i = some '~' ∧ getC t (i+1) = some '~' then
        stripLoop t fuel (i+2) res omap
      else if getC t i = some btick then
        stripLoop t fuel (i+1) res omap
      else if getC t i = some '[' ∨ getC t i = some ']' ∨
          (getC t i = some '(' ∧ getC t (i-1) = some ']') ∨
          (getC t i = some ')' ∧ 0 < res.length) then
        (if getC t i = some '(' ∧ getC t (i-1) = some ']' then
          match idxOfFrom t i ')' with
          | some closeIdx => stripLoop t fuel (closeIdx + 1) res omap
          | none => stripLoop t fuel (i+1) res omap
         else stripLoop t fuel (i+1) res omap)
      else if getC t i = some '#' ∧ (i = 0 ∨ getC t (i-1) = some '\n') then
        stripLoop t fuel (skipHS t (t.length + 1) i) res omap
      else if getC t i = some '>' ∧ (i = 0 ∨ getC t (i-1) = some '\n') then
        (if getC t (i+1) = some ' ' then stripLoop t fuel (i+2) res omap
         else stripLoop t fuel (i+1) res omap)
      else if (getC t i = some '-' ∨ getC t i = some '*' ∨ getC t i = some '+') ∧
          (i = 0 ∨ getC t (i-1) = some '\n') ∧ getC t (i+1) = some ' ' then
        stripLoop t fuel (i+2) res omap
      else if optIsDigit (getC t i) ∧ (i = 0 ∨ getC t (i-1) = some '\n') then
        (if getC t (skipDig t (t.length + 1) i) = some '.' ∧
            getC t (skipDig t (t.length + 1) i + 1) = some ' ' then
           stripLoop t fuel (skipDig t (t.length + 1) i + 2) res omap
         else stripLoop t fuel (i+1) (res ++ [t.getD i ' ']) (omap ++ [i]))
      else
        stripLoop t fuel (i+1) (res ++ [t.getD i ' ']) (omap ++ [i])
    else (res, omap)

/-- `stripMarkdownSyntax(text)` of the source: the stripped text together
with the offset map back to original positions. -/
def stripMarkdown (t : List Char) : List Char × List Nat :=
  stripLoop t (t.length + 1) 0 [] []

/-- JS `String.prototype.substring` (swaps its arguments when start > end). -/
def jsSubstring (s : List Char) (a b : Nat) : List Char :=
  (s.take (max a b)).drop (min a b)

/-- `findTextInSource(state, text, ...)`: returns the found range and the
new `state.searchPosition`.  The three branches are the direct match, the
stripped match (`?? idx` defaults modelled by `getD`), and the fallback,
which deliberately leaves `searchPosition` unchanged. -/
def findTextInSource (source : List Char) (searchPos : Nat) (text : List Char) :
    (Nat × Nat) × Nat :=
  let searchRange := source.drop searchPos
  match idxOfList searchRange text with
  | some idx =>
      let s0 := searchPos + idx
      let e0 := s0 + text.length
      ((s0, e0), e0)
  | none =>
      let stripped := stripMarkdown searchRange
      match idxOfList stripped.1 text with
      | some idx =>
          let originalStart := stripped.2.getD idx idx
          let originalEnd := stripped.2.getD (idx + text.length - 1) (idx + text.length - 1)
          ((searchPos + originalStart, searchPos + originalEnd + 1), searchPos + originalEnd + 1)
      | none =>
          ((searchPos, min (searchPos + text.length) source.length), searchPos)

/-!
## The annotating renderer (lines 64-110)

`RenderState` is the `__sourceMapping` object; `mdRender` models the
overridden `md.render`, which builds a fresh `RenderState` for the source
(in particular `searchPosition: 0`) regardless of what a caller left in
`env`.  The external markdown parser is out of scope (the spec treats it
as a collaborator), so the inline text tokens it produces are an arbitrary
list of strings fed to the overridden `text` renderer rule; each nonempty
token emits one annotated span carrying the found character range and the
source substring stored in `data-source-text`.
-/

structure RenderState where
  source : List Char
  lineOffsets : List Nat
  currentLineStart : Nat
  searchPosition : Nat
deriving DecidableEq

def calculateLineOffsets (source : List Char) : List Nat :=
  0 :: ((List.range source.length).filter fun i => getC source i == some '\n').map (· + 1)

structure EmittedSpan where
  charStart : Nat
  charEnd : Nat
  sourceTextAttr : List Char
deriving DecidableEq

/-- The overridden `text` renderer rule (lines 90-110): empty token
content falls through to the default rule (no annotated span). -/
def textRule (st : RenderState) (content : List Char) : Option EmittedSpan × RenderState :=
  if content = [] then (none, st)
  else
    let r := findTextInSource st.source st.searchPosition content
    (some ⟨r.1.1, r.1.2, jsSubstring st.source r.1.1 r.1.2⟩,
     { st with searchPosition := r.2 })

def renderTokens (st : RenderState) : List (List Char) → List EmittedSpan × RenderState
  | [] => ([], st)
  | tk :: ts =>
    let r := textRule st tk
    let rest := renderTokens r.2 ts
    ((match r.1 with | some sp => sp :: rest.1 | none => rest.1), rest.2)

def initRenderState (src : List Char) : RenderState :=
  { source := src, lineOffsets := calculateLineOffsets src, currentLineStart := 0,
    searchPosition := 0 }

/-- `md.render(src, env)` (lines 75-85): the `__sourceMapping` entry of the
render environment is overridden with a fresh state built from `src` alone,
so whatever a previous call left behind (`_env`) is ignored. -/
def mdRender (_env : Option RenderState) (src : List Char) (tokens : List (List Char)) :
    List EmittedSpan × RenderState :=
  renderTokens (initRenderState src) tokens

/-- Hypothesis for the amended no-overlap claim: every (nonempty) token is
located by the direct or the stripped search, i.e. the fallback branch of
`findTextInSource` is never taken during the pass. -/
def resolvesAt (source : List Char) (pos : Nat) (text : List Char) : Bool :=
  (idxOfList (source.drop pos) text).isSome ||
  (idxOfList (stripMarkdown (source.drop pos)).1 text).isSome

def allResolve (source : List Char) : Nat → List (List Char) → Bool
  | _, [] => true
  | pos, text :: ts =>
    if text = [] then allResolve source pos ts
    else resolvesAt source pos text &&
      allResolve source (findTextInSource source pos text).2 ts

/-- Well-formedness of a `stripMarkdownSyntax` result: one offset per kept
character, offsets within the input, strictly increasing. -/
def stripOk (t : List Char) (p : List Char × List Nat) : Prop :=
  p.1.length = p.2.length ∧ (∀ x ∈ p.2, x < t.length) ∧ List.Pairwise (· < ·) p.2

/-!
## The rendered visual tree

`VNode`/`VList` model the DOM subtree under the preview root: text nodes
and elements with the attributes the source-mapping code reads (tag name,
`id`, parsed `data-source-start` / `data-source-end`, decoded
`data-source-text`).  JS float arithmetic in the proportional score/offset
computations is modelled by exact unnormalized fractions `Frac` (every
denominator constructed below is positive, so the cross-multiplication
comparisons are the usual rational order).
-/

structure EAttrs where
  tag : List Char
  idAttr : Option (List Char)
  srcStart : Option Int
  srcEnd : Option Int
  srcTextAttr : Option (List Char)
deriving DecidableEq

mutual
inductive VNode where
  | text (s : List Char) : VNode
  | elem (a : EAttrs) (kids : VList) : VNode
deriving DecidableEq
inductive VList where
  | nil : VList
  | cons (hd : VNode) (tl : VList) : VList
deriving DecidableEq
end

def cursorId : List Char := "preview-cursor-marker".data

def spanTag : List Char := "span".data

/-- `createCursorElement()` (lines 1255-1261): a `span` with
`id = CURSOR_ELEMENT_ID` and no children (class and `aria-hidden` carry no
behavior read back by this module and are not modelled). -/
def cursorNode : VNode :=
  .elem ⟨spanTag, some cursorId, none, none, none⟩ .nil

/-- Does a node match the `querySelector` for `#preview-cursor-marker`? -/
def isCursorN : VNode → Bool
  | .text _ => false
  | .elem a _ => a.idAttr == some cursorId

/-- Exact fractions standing in for JS numbers. -/
structure Frac where
  num : Int
  den : Int
deriving DecidableEq

def fOfInt (n : Int) : Frac := ⟨n, 1⟩

def fAdd (a b : Frac) : Frac := ⟨a.num * b.den + b.num * a.den, a.den * b.den⟩

def fSub (a b : Frac) : Frac := ⟨a.num * b.den - b.num * a.den, a.den * b.den⟩

def fMul (a b : Frac) : Frac := ⟨a.num * b.num, a.den * b.den⟩

def fDiv (a b : Frac) : Frac := ⟨a.num * b.den, a.den * b.num⟩

def fLe (a b : Frac) : Bool := decide (a.num * b.den ≤ b.num * a.den)

def fLt (a b : Frac) : Bool := decide (a.num * b.den < b.num * a.den)

def fMax (a b : Frac) : Frac := if fLe a b then b else a

/-- JS `Math.round` (half toward positive infinity) on a fraction with
positive denominator. -/
def jsRound (q : Frac) : Int := Int.fdiv (2 * q.num + q.den) (2 * q.den)

/-- `querySelectorAll('span[data-source-start]')` match. -/
def isSelSpan (a : EAttrs) : Bool := a.tag == spanTag && a.srcStart.isSome

/-- Pre-order lengths of the text nodes under a child list — the document
order a `TreeWalker(SHOW_TEXT)` visits them in. -/
def runsL : VList → List Nat
  | .nil => []
  | .cons (.text s) tl => s.length :: runsL tl
  | .cons (.elem _ ks) tl => runsL ks ++ runsL tl

def firstKidTextLen : VList → Option Nat
  | .cons (.text s) _ => some s.length
  | _ => none

/-- What `insertCursorAtPosition` reads off one candidate span element. -/
structure SpanInfo where
  sA : Int
  eA : Int
  runs : List Nat
  firstKidLen : Option Nat
deriving DecidableEq

def spanInfoOf (a : EAttrs) (ks : VList) : SpanInfo :=
  ⟨a.srcStart.getD (-1), a.srcEnd.getD (-1), runsL ks, firstKidTextLen ks⟩

/-- All selector matches in document order (descendants of the root). -/
def collectL : VList → List SpanInfo
  | .nil => []
  | .cons (.text _) tl => collectL tl
  | .cons (.elem a ks) tl =>
      (if isSelSpan a then [spanInfoOf a ks] else []) ++ collectL ks ++ collectL tl

def collectSpans : VNode → List SpanInfo
  | .text _ => []
  | .elem _ ks => collectL ks

/-- The score of an in-range candidate (lines 1137-1150). -/
def spanScore (pos eS eE : Int) : Frac :=
  let range := eE - eS
  let base : Frac := ⟨1000, max 1 range⟩
  if eS < pos ∧ pos < eE then fAdd base (fOfInt 200)
  else if pos = eE ∧ 0 < range then fAdd base (fOfInt 50)
  else if pos = eS then fAdd base (fOfInt (-100))
  else base

/-- The `forEach` selection loop (lines 1128-1159): skip invalid or empty
spans, score containing spans, keep the strictly best (`bestScore` starts
at `-Infinity`, modelled by `none`). -/
def pickLoop (pos : Int) : List SpanInfo → Nat → Option (Frac × Nat × SpanInfo) →
    Option (Nat × SpanInfo)
  | [], _, best => best.map (fun b => b.2)
  | sp :: rest, idx, best =>
    if sp.sA = -1 ∨ sp.eA = -1 then pickLoop pos rest (idx+1) best
    else if sp.eA ≤ sp.sA then pickLoop pos rest (idx+1) best
    else if sp.sA ≤ pos ∧ pos ≤ sp.eA then
      (let score := spanScore pos sp.sA sp.eA
       match best with
       | none => pickLoop pos rest (idx+1) (some (score, idx, sp))
       | some b =>
         if fLt b.1 score then pickLoop pos rest (idx+1) (some (score, idx, sp))
         else pickLoop pos rest (idx+1) (some b))
    else pickLoop pos rest (idx+1) best

/-- The `TreeWalker` loop (lines 1187-1206): find the first text node whose
proportional span contains the target ratio, and the rounded insert offset
within it. -/
def walkRuns (srcOff srcLen : Int) : Nat → Int → List Nat → Option (Nat × Int)
  | _, _, [] => none
  | k, cur, L :: rest =>
    let den : Int := max 1 srcLen
    let startR : Frac := ⟨cur, den⟩
    let endR : Frac := ⟨cur + (L : Int), den⟩
    let tgtR : Frac := ⟨srcOff, den⟩
    if fLe startR tgtR && fLe tgtR endR then
      let relR := fDiv (fSub tgtR startR) (fMax ⟨1, 1000⟩ (fSub endR startR))
      some (k, jsRound (fMul relR (fOfInt (L : Int))))
    else walkRuns srcOff srcLen (k+1) (cur + (L : Int)) rest

/-- What happens at the chosen text node (lines 1233-1247). -/
inductive InsAct where
  | actBefore
  | actAfter
  | actSplit (off : Nat)
deriving DecidableEq

inductive InsMode where
  | onText (k : Nat) (act : InsAct)
  | appendEl
  | prependEl
deriving DecidableEq

def actFromOffset (off : Int) (len : Nat) : InsAct :=
  if off = 0 then .actBefore
  else if (len : Int) ≤ off then .actAfter
  else .actSplit off.toNat

def vappend : VList → VList → VList
  | .nil, ys => ys
  | .cons x xs, ys => .cons x (vappend xs ys)

/-- Replacement siblings for the chosen text node: insert before, insert
after (`insertBefore(cursor, textNode.nextSibling)`), or `splitText` and
insert between the halves. -/
def applyAct (s : List Char) : InsAct → VList
  | .actBefore => .cons cursorNode (.cons (.text s) .nil)
  | .actAfter => .cons (.text s) (.cons cursorNode .nil)
  | .actSplit off =>
      .cons (.text (List.take off s)) (.cons cursorNode (.cons (.text (List.drop off s)) .nil))

/-- Perform the action at the `k`-th pre-order text node of a child list;
`some k'` means not yet found (`k'` text nodes still to skip). -/
def insTextL : VList → Nat → InsAct → VList × Option Nat
  | .nil, k, _ => (.nil, some k)
  | .cons (.text s) tl, k, act =>
    if k = 0 then (vappend (applyAct s act) tl, none)
    else (.cons (.text s) (insTextL tl (k-1) act).1, (insTextL tl (k-1) act).2)
  | .cons (.elem a ks) tl, k, act =>
    match (insTextL ks k act).2 with
    | none => (.cons (.elem a (insTextL ks k act).1) tl, none)
    | some k2 =>
      (.cons (.elem a ks) (insTextL tl k2 act).1, (insTextL tl k2 act).2)

def applyModeToKids : InsMode → VList → VList
  | .appendEl, ks => vappend ks (.cons cursorNode .nil)
  | .prependEl, ks => .cons cursorNode ks
  | .onText k act, ks => (insTextL ks k act).1

/-- Apply the insertion inside the `n`-th selector-matching span (same
selector and document order as `collectL`). -/
def mutSpanL : VList → Nat → InsMode → VList × Option Nat
  | .nil, n, _ => (.nil, some n)
  | .cons (.text s) tl, n, m =>
    (.cons (.text s) (mutSpanL tl n m).1, (mutSpanL tl n m).2)
  | .cons (.elem a ks) tl, n, m =>
    if isSelSpan a then
      (if n = 0 then (.cons (.elem a (applyModeToKids m ks)) tl, none)
       else
        match (mutSpanL ks (n-1) m).2 with
        | none => (.cons (.elem a (mutSpanL ks (n-1) m).1) tl, none)
        | some n2 =>
          (.cons (.elem a ks) (mutSpanL tl n2 m).1, (mutSpanL tl n2 m).2))
    else
      match (mutSpanL ks n m).2 with
      | none => (.cons (.elem a (mutSpanL ks n m).1) tl, none)
      | some n2 =>
        (.cons (.elem a ks) (mutSpanL tl n2 m).1, (mutSpanL tl n2 m).2)

def applySpanMut (root : VNode) (n : Nat) (m : InsMode) : VNode :=
  match root with
  | .text s => .text s
  | .elem a ks => .elem a (mutSpanL ks n m).1

/-- The merge step of `removeCursor` (lines 1276-1281): after deleting the
marker, if the previous and next siblings are both text nodes, concatenate
them. -/
def mergeAt : VNode → VList → VList × Bool
  | .text a0, .cons (.text c0) ys2 => (.cons (.text (a0 ++ c0)) ys2, true)
  | x0, ys => (.cons x0 ys, true)

mutual
/-- `removeCursor(previewRoot)` (lines 1266-1283): delete the first
`#preview-cursor-marker` in document order and, when both its neighbors are
text nodes, merge them back into one. -/
def remCurN : VNode → VNode × Bool
  | .text s => (.text s, false)
  | .elem a ks => (.elem a (remCurL ks).1, (remCurL ks).2)
def remCurL : VList → VList × Bool
  | .nil => (.nil, false)
  | .cons x xs =>
    if isCursorN x then (xs, true)
    else if (remCurN x).2 then (.cons (remCurN x).1 xs, true)
    else
      match xs with
      | .nil => (.cons x .nil, false)
      | .cons y ys =>
        if isCursorN y then mergeAt x ys
        else (.cons x (remCurL (.cons y ys)).1, (remCurL (.cons y ys)).2)
end

/-- The cursor is only ever searched for among the preview root's
descendants. -/
def remCurRoot : VNode → VNode
  | .text s => .text s
  | .elem a ks => .elem a (remCurL ks).1

/-- The tail of `insertCursorAtPosition` after the walker ran (lines
1209-1250): the `cursorAtEnd`-with-last-text fallback, the
first-child-text fallback, and the bare append/prepend, followed by the
shared insert-at-text-node logic. -/
def insertWithWalk (r0 : VNode) (pos : Int) (n : Nat) (sp : SpanInfo) :
    Option (Nat × Int) → Bool × VNode
  | some (k, off) =>
      (true, applySpanMut r0 n (.onText k (actFromOffset off (sp.runs.getD k 0))))
  | none =>
    if pos = sp.eA ∧ sp.runs ≠ [] then
      (true, applySpanMut r0 n (.onText (sp.runs.length - 1)
        (actFromOffset ((sp.runs.getLast?.getD 0 : Nat) : Int) (sp.runs.getLast?.getD 0))))
    else
      match sp.firstKidLen with
      | some L =>
          (true, applySpanMut r0 n
            (.onText 0 (actFromOffset (if pos = sp.eA then (L : Int) else 0) L)))
      | none => (true, applySpanMut r0 n (if pos = sp.eA then .appendEl else .prependEl))

/-- Dispatch on the chosen target span (lines 1161-1206). -/
def insertWithPick (r0 : VNode) (pos : Int) : Option (Nat × SpanInfo) → Bool × VNode
  | none => (false, r0)
  | some (n, sp) =>
      insertWithWalk r0 pos n sp (walkRuns (pos - sp.sA) (sp.eA - sp.sA) 0 0 sp.runs)

/-- `insertCursorAtPosition(previewRoot, sourceCharPos)` (lines 1111-1250):
remove any existing cursor, pick the best containing text span, walk its
text nodes, insert.  The function is staged through `insertWithPick` and
`insertWithWalk`, which embed the later parts of the same source
function. -/
def insertCursorAtPosition (root : VNode) (pos : Int) : Bool × VNode :=
  insertWithPick (remCurRoot root) pos
    (pickLoop pos (collectSpans (remCurRoot root)) 0 none)

/-!
## Validity predicates and observations on trees
-/

def textContentL : VList → List Char
  | .nil => []
  | .cons (.text s) tl => s ++ textContentL tl
  | .cons (.elem _ ks) tl => textContentL ks ++ textContentL tl

def textContentN : VNode → List Char
  | .text s => s
  | .elem _ ks => textContentL ks

/-- No node in the subtree carries the cursor id. -/
def cursorFreeL : VList → Bool
  | .nil => true
  | .cons (.text _) tl => cursorFreeL tl
  | .cons (.elem a ks) tl => !(a.idAttr == some cursorId) && cursorFreeL ks && cursorFreeL tl

def cursorFreeN : VNode → Bool
  | .text _ => true
  | .elem a ks => !(a.idAttr == some cursorId) && cursorFreeL ks

def cursorFreeRoot : VNode → Bool
  | .text _ => true
  | .elem _ ks => cursorFreeL ks

def headIsText : VList → Bool
  | .cons (.text _) _ => true
  | _ => false

def headIsCursor : VList → Bool
  | .cons x _ => isCursorN x
  | _ => false

/-- Every cursor-id element in the subtree is childless (true of the
markers this module itself creates). -/
def emptyCursorsL : VList → Bool
  | .nil => true
  | .cons (.text _) tl => emptyCursorsL tl
  | .cons (.elem a ks) tl =>
      (if a.idAttr == some cursorId then decide (ks = VList.nil) else true) &&
        emptyCursorsL ks && emptyCursorsL tl

def emptyCursorsRoot : VNode → Bool
  | .text _ => true
  | .elem _ ks => emptyCursorsL ks

/-- A normalized tree: no two adjacent sibling text nodes anywhere (the
state HTML parsing and `normalize()` leave the preview in). -/
def normalL : VList → Bool
  | .nil => true
  | .cons (.text _) tl => !headIsText tl && normalL tl
  | .cons (.elem _ ks) tl => normalL ks && normalL tl

def normalRoot : VNode → Bool
  | .text _ => true
  | .elem _ ks => normalL ks

/-!
## Selection resolution (lines 376-404 and 500-568)

`locateL` is the upward walk of `getPositionFromTextNode` seen from above:
for the `n`-th pre-order text node below the preview root it finds the
innermost enclosing element carrying `data-source-start` (the walk stops
at — and excludes — the preview root), together with the index of the text
node among that element's own text nodes.
-/

def textCountL : VList → Nat
  | .nil => 0
  | .cons (.text _) tl => 1 + textCountL tl
  | .cons (.elem _ ks) tl => textCountL ks + textCountL tl

def locateL : VList → Nat → Option (EAttrs × VList × Nat)
  | .nil, _ => none
  | .cons (.text _) tl, n =>
      if n = 0 then none else locateL tl (n-1)
  | .cons (.elem a ks) tl, n =>
      if n < textCountL ks then
        (match locateL ks n with
         | some r => some r
         | none => if a.srcStart.isSome then some (a, ks, n) else none)
      else locateL tl (n - textCountL ks)

/-- Sum of the first `k` entries (display length of the text nodes
preceding the target inside the source-mapped element). -/
def sumFirstRuns : List Nat → Nat → Nat
  | _, 0 => 0
  | [], _+1 => 0
  | L :: rest, k+1 => L + sumFirstRuns rest k

/-- `getPositionFromTextNode(textNode, charOffset, previewRoot)`: the text
node is referenced by its pre-order index `n` below the root. -/
def getPositionFromTextNode (root : VNode) (n charOffset : Nat) : Option Int :=
  match root with
  | .text _ => none
  | .elem _ rootKids =>
    match locateL rootKids n with
    | none => none
    | some (a, ks, kIdx) =>
      match a.srcStart, a.srcEnd with
      | some start, some stop =>
        let cum := sumFirstRuns (runsL ks) kIdx + charOffset
        (match a.srcTextAttr with
         | some sourceText =>
           let m := buildDisplayToSourceMap sourceText (textContentL ks)
           some (start + (m.getD (min cum (m.length - 1)) cum : Int))
         | none =>
           let fullLen := (textContentL ks).length
           let sourceLen := stop - start
           if 0 < fullLen then
             some (jsRound (fAdd (fOfInt start)
               (fMul (fOfInt sourceLen) ⟨(cum : Int), (fullLen : Int)⟩)))
           else some (if cum = 0 then start else stop))
      | _, _ => none

/-- `getSelectionSourceRange(previewRoot)` (lines 376-404): both selection
endpoints — modelled as text-node references `(pre-order index, offset)`,
the `Node.TEXT_NODE` branch of `getSourcePositionFromNode` — are resolved
independently and ordered with `min`/`max`.  A collapsed selection returns
`null`. -/
def getSelectionSourceRange (root : VNode) (startRef endRef : Nat × Nat) :
    Option (Int × Int) :=
  if startRef = endRef then none
  else
    match getPositionFromTextNode root startRef.1 startRef.2,
          getPositionFromTextNode root endRef.1 endRef.2 with
    | some p, some q => some (min p q, max p q)
    | _, _ => none

/-!
## Concrete test data, used by the witness theorems
-/

/-- The spec's bold scenario: source text of the inline node. -/
def srcBold : List Char := "**bold** text".data

/-- The spec's bold scenario: rendered display text. -/
def dispBold : List Char := "bold text".data

def srcAB : List Char := "ab".data

def dispAX : List Char := "ax".data

def srcBracket : List Char := "[".data

def srcXYZ : List Char := "x *y* z".data

def tokX : List Char := "x ".data

def tokY : List Char := "y".data

def tokZ2 : List Char := " z".data

def tokZ : List Char := "z".data

def tokA : List Char := "a".data

def egCD : List Char := "cd".data

def artTag : List Char := "article".data

-- demo tree: two annotated inline-text spans with a gap (4,10) between them
def egSpan1 : VNode :=
  .elem ⟨spanTag, none, some 0, some 4, some srcAB⟩ (.cons (.text srcAB) .nil)
def egSpan2 : VNode :=
  .elem ⟨spanTag, none, some 10, some 14, some egCD⟩ (.cons (.text egCD) .nil)
def egRoot : VNode :=
  .elem ⟨artTag, none, none, none, none⟩ (.cons egSpan1 (.cons egSpan2 .nil))

/-!
# Theorems

## Generic helpers
-/

theorem getC_lt {s : List Char} {i : Nat} {c : Char} (h : getC s i = some c) :
    i < s.length := by
  unfold getC at h
  exact (List.getElem?_eq_some.mp h).1

theorem getC_drop (s : List Char) (i : Nat) : getC s i = (s.drop i).head? := by
  induction s generalizing i with
  | nil => cases i <;> rfl
  | cons c tl ih =>
    cases i with
    | zero => simp [getC]
    | succ n => simp only [getC, List.getElem?_cons_succ, List.drop_succ_cons]; exact ih n

theorem drop_cons_getC {s : List Char} {i : Nat} {c : Char} {rest : List Char}
    (h : s.drop i = c :: rest) : getC s i = some c := by
  rw [getC_drop, h]; rfl

theorem drop_cons_succ {s : List Char} {i : Nat} {c : Char} {rest : List Char}
    (h : s.drop i = c :: rest) : s.drop (i+1) = rest := by
  rw [← List.tail_drop, h]; rfl

theorem prevAt_add_one (s : List Char) (i : Nat) : prevAt s (i+1) = getC s i := by
  simp [prevAt]

theorem prevAt_add_two (s : List Char) (i : Nat) : prevAt s (i+2) = getC s (i+1) := by
  simp [prevAt]

theorem pairwise_le_getD {l : List Nat} (h : List.Pairwise (· ≤ ·) l) {i j : Nat}
    (hij : i ≤ j) (hj : j < l.length) : l.getD i 0 ≤ l.getD j 0 := by
  rcases Nat.lt_or_ge i j with hlt | hge
  · have hi : i < l.length := lt_trans hlt hj
    rw [List.getD_eq_getElem l 0 hi, List.getD_eq_getElem l 0 hj]
    exact List.pairwise_iff_getElem.mp h i j hi hj hlt
  · have hij2 : i = j := le_antisymm hij hge
    subst hij2; rfl

theorem pairwise_le_replicate (n : Nat) (a : Nat) :
    List.Pairwise (· ≤ ·) (List.replicate n a) := by
  induction n with
  | zero => simp
  | succ m ih =>
    rw [List.replicate_succ]
    exact List.Pairwise.cons (fun b hb => by simp_all [List.eq_of_mem_replicate hb]) ih

theorem getD_append_left {l1 l2 : List Nat} {n : Nat} (h : n < l1.length) (d : Nat) :
    (l1 ++ l2).getD n d = l1.getD n d := by
  rw [List.getD_eq_getElem _ d (by simp; omega), List.getD_eq_getElem _ d h]
  exact List.getElem_append_left h

theorem getD_append_right {l1 l2 : List Nat} {n : Nat} (h : l1.length ≤ n) (d : Nat) :
    (l1 ++ l2).getD n d = l2.getD (n - l1.length) d := by
  induction l1 generalizing n with
  | nil => simp
  | cons x tl ih =>
    cases n with
    | zero => simp at h
    | succ m =>
      simp only [List.cons_append, List.getD_cons_succ, List.length_cons]
      rw [ih (by simpa using h)]
      congr 1
      omega

theorem getD_replicate {k m a d : Nat} (h : m < k) :
    (List.replicate k a).getD m d = a := by
  rw [List.getD_eq_getElem _ d (by simpa using h)]
  simp

/-!
## The dual-cursor scan: invariants (claims C1, C10, C5)
-/

theorem bdsLoop_inv (s d : List Char) : ∀ (fuel i j : Nat) (acc : List Nat),
    i ≤ s.length → acc.length = j → j ≤ d.length →
    (∀ x ∈ acc, x < i) → List.Pairwise (· < ·) acc →
    i ≤ (bdsLoop s d fuel i j acc).1 ∧
    (bdsLoop s d fuel i j acc).1 ≤ s.length ∧
    (bdsLoop s d fuel i j acc).2.length ≤ d.length ∧
    (∀ x ∈ (bdsLoop s d fuel i j acc).2, x < (bdsLoop s d fuel i j acc).1) ∧
    List.Pairwise (· < ·) (bdsLoop s d fuel i j acc).2 := by
  intro fuel
  induction fuel with
  | zero =>
    intro i j acc h1 h2 h3 h4 h5
    simp only [bdsLoop]
    exact ⟨le_refl _, h1, h2 ▸ h3, h4, h5⟩
  | succ n ih =>
    intro i j acc h1 h2 h3 h4 h5
    simp only [bdsLoop]
    split_ifs with hc hb1 hb2 hb3 hb4 hb5
    · -- bold/underscore pair: sourceIdx += 2
      have hi1 : i + 1 < s.length := by
        rcases hb1 with ⟨_, h⟩ | ⟨_, h⟩ <;> exact getC_lt h
      have := ih (i+2) j acc (by omega) h2 h3 (fun x hx => by have := h4 x hx; omega) h5
      exact ⟨by omega, this.2⟩
    · -- single emphasis marker
      have := ih (i+1) j acc (by omega) h2 h3 (fun x hx => by have := h4 x hx; omega) h5
      exact ⟨by omega, this.2⟩
    · -- strikethrough pair
      have hi1 : i + 1 < s.length := getC_lt hb3.2
      have := ih (i+2) j acc (by omega) h2 h3 (fun x hx => by have := h4 x hx; omega) h5
      exact ⟨by omega, this.2⟩
    · -- backtick
      have := ih (i+1) j acc (by omega) h2 h3 (fun x hx => by have := h4 x hx; omega) h5
      exact ⟨by omega, this.2⟩
    · -- character match: record the mapping
      have hlen : (acc ++ [i]).length = j + 1 := by simp [h2]
      have hb : ∀ x ∈ acc ++ [i], x < i + 1 := by
        intro x hx
        rcases List.mem_append.mp hx with hx | hx
        · have := h4 x hx; omega
        · simp at hx; omega
      have hpw : List.Pairwise (· < ·) (acc ++ [i]) := by
        rw [List.pairwise_append]
        exact ⟨h5, List.pairwise_singleton _ _, fun a ha b hb => by
          simp at hb; subst hb; exact h4 a ha⟩
      have := ih (i+1) (j+1) (acc ++ [i]) (by omega) hlen (by omega) hb hpw
      exact ⟨by omega, this.2⟩
    · -- mismatch: advance source alone
      have := ih (i+1) j acc (by omega) h2 h3 (fun x hx => by have := h4 x hx; omega) h5
      exact ⟨by omega, this.2⟩
    · -- loop condition failed
      exact ⟨le_refl _, h1, h2 ▸ h3, h4, h5⟩

/-- The padding value `lastSourcePos` always equals the final source
index. -/
theorem lastSourcePos_eq (r : Nat) : (if 0 < r then r else 0) = r := by
  split <;> omega

/-- The table, with the `let`s of the definition expanded and the
`lastSourcePos` conditional resolved. -/
theorem build_eq (s d : List Char) :
    buildDisplayToSourceMap s d =
      ((bdsLoop s d (s.length + 1) 0 0 []).2 ++
        List.replicate (d.length - (bdsLoop s d (s.length + 1) 0 0 []).2.length)
          (bdsLoop s d (s.length + 1) 0 0 []).1) ++
      [min ((bdsLoop s d (s.length + 1) 0 0 []).1 + 1) s.length] := by
  simp only [buildDisplayToSourceMap, lastSourcePos_eq]

theorem table_pairwise_le (s d : List Char) :
    List.Pairwise (· ≤ ·) (buildDisplayToSourceMap s d) := by
  obtain ⟨h1, h2, h3, h4, h5⟩ :=
    bdsLoop_inv s d (s.length + 1) 0 0 [] (by omega) rfl (by omega) (by simp) (by simp)
  rw [build_eq]
  set r := bdsLoop s d (s.length + 1) 0 0 [] with hr
  have hq : r.1 ≤ min (r.1 + 1) s.length := le_min (by omega) h2
  rw [List.pairwise_append]
  refine ⟨?_, List.pairwise_singleton _ _, ?_⟩
  · rw [List.pairwise_append]
    refine ⟨h5.imp le_of_lt, pairwise_le_replicate _ _, ?_⟩
    intro a ha b hb
    have := h4 a ha
    have := List.eq_of_mem_replicate hb
    omega
  · intro a ha b hb
    simp only [List.mem_singleton] at hb
    subst hb
    rcases List.mem_append.mp ha with ha | ha
    · have := h4 a ha; omega
    · have := List.eq_of_mem_replicate ha; omega

/-- C1: the display-to-source correspondence table is monotonically
non-decreasing: `i ≤ j → table[i] ≤ table[j]`. -/
theorem claim_C1_monotone (s d : List Char) (i j : Nat) (hij : i ≤ j)
    (hj : j < (buildDisplayToSourceMap s d).length) :
    (buildDisplayToSourceMap s d).getD i 0 ≤ (buildDisplayToSourceMap s d).getD j 0 :=
  pairwise_le_getD (table_pairwise_le s d) hij hj

theorem claim_C1_witness :
    (1 : Nat) ≤ 4 ∧ 4 < (buildDisplayToSourceMap srcBold dispBold).length ∧
    (buildDisplayToSourceMap srcBold dispBold).getD 1 0 ≤
      (buildDisplayToSourceMap srcBold dispBold).getD 4 0 :=
  ⟨by decide, by decide,
   claim_C1_monotone srcBold dispBold 1 4 (by decide) (by decide)⟩

/-- C10: the table has exactly `displayText.length + 1` entries (one per
display index plus the after-last-character caret entry; being a list it
has no gaps) and every entry lies in `[0, sourceText.length]`. -/
theorem claim_C10_shape (s d : List Char) :
    (buildDisplayToSourceMap s d).length = d.length + 1 ∧
    ∀ x ∈ buildDisplayToSourceMap s d, x ≤ s.length := by
  obtain ⟨h1, h2, h3, h4, h5⟩ :=
    bdsLoop_inv s d (s.length + 1) 0 0 [] (by omega) rfl (by omega) (by simp) (by simp)
  rw [build_eq]
  set r := bdsLoop s d (s.length + 1) 0 0 [] with hr
  constructor
  · simp only [List.length_append, List.length_replicate, List.length_singleton]
    omega
  · intro x hx
    rcases List.mem_append.mp hx with hx | hx
    · rcases List.mem_append.mp hx with hx | hx
      · have := h4 x hx; omega
      · have := List.eq_of_mem_replicate hx; omega
    · simp only [List.mem_singleton] at hx
      subst hx
      exact min_le_right _ _

/-- C5 (amended): display indices past the last recorded mapping are all
filled with the scan's final source index (which is at least every
recorded offset, but in general not equal to the last recorded offset),
and the extra caret entry is `min(final + 1, sourceText.length)`. -/
theorem claim_C5_amended (s d : List Char) (i : Nat)
    (h1 : (bdsLoop s d (s.length + 1) 0 0 []).2.length ≤ i) (h2 : i ≤ d.length) :
    (buildDisplayToSourceMap s d).getD i 0 =
      (if i < d.length then (bdsLoop s d (s.length + 1) 0 0 []).1
       else min ((bdsLoop s d (s.length + 1) 0 0 []).1 + 1) s.length) ∧
    ∀ x ∈ (bdsLoop s d (s.length + 1) 0 0 []).2,
      x ≤ (bdsLoop s d (s.length + 1) 0 0 []).1 := by
  obtain ⟨g1, g2, g3, g4, g5⟩ :=
    bdsLoop_inv s d (s.length + 1) 0 0 [] (by omega) rfl (by omega) (by simp) (by simp)
  rw [build_eq]
  set r := bdsLoop s d (s.length + 1) 0 0 [] with hr
  refine ⟨?_, fun x hx => le_of_lt (g4 x hx)⟩
  have hlen : (r.2 ++ List.replicate (d.length - r.2.length) r.1).length = d.length := by
    simp only [List.length_append, List.length_replicate]; omega
  by_cases hi : i < d.length
  · rw [if_pos hi, getD_append_left (by omega) 0, getD_append_right h1 0,
      getD_replicate (by omega)]
  · rw [if_neg hi]
    have hieq : i = d.length := by omega
    subst hieq
    rw [getD_append_right (by omega) 0, hlen]
    simp

theorem claim_C5_amended_witness :
    (bdsLoop srcAB dispAX (srcAB.length + 1) 0 0 []).2.length ≤ 1 ∧
    (1 : Nat) ≤ dispAX.length ∧
    ((buildDisplayToSourceMap srcAB dispAX).getD 1 0 =
      (if 1 < dispAX.length then (bdsLoop srcAB dispAX (srcAB.length + 1) 0 0 []).1
       else min ((bdsLoop srcAB dispAX (srcAB.length + 1) 0 0 []).1 + 1)
         srcAB.length) ∧
     ∀ x ∈ (bdsLoop srcAB dispAX (srcAB.length + 1) 0 0 []).2,
       x ≤ (bdsLoop srcAB dispAX (srcAB.length + 1) 0 0 []).1) :=
  ⟨by decide, by decide, claim_C5_amended srcAB dispAX 1 (by decide) (by decide)⟩

/-- C5 (counterexample): for source `"ab"`, display `"ax"` the scan's last
(and only) character match is at display index 0 with recorded offset 0
(= `table[0]`), but the padded entry at display index 1 is the final source
index 2, not 0: the padding does not clamp to the offset recorded for the
last matched position. -/
theorem claim_C5_counterexample :
    buildDisplayToSourceMap srcAB dispAX = [0, 2, 2] ∧
    (buildDisplayToSourceMap srcAB dispAX).getD 1 0 ≠
      (buildDisplayToSourceMap srcAB dispAX).getD 0 0 := by
  constructor
  · decide
  · decide

/-- C3: for source `"**bold** text"` and display `"bold text"`, display
index 1 (the 'o' of "bold") maps to source offset 3, and the click handler
built on the table returns `sourceStart = sourceEnd = start + 3`. -/
theorem claim_C3_boldClick :
    (buildDisplayToSourceMap srcBold dispBold).getD 1 0 = 3 ∧
    ∀ start : Nat,
      clickPrecisePos start srcBold dispBold 1 = (start + 3, start + 3) := by
  refine ⟨by decide, fun start => ?_⟩
  have h : clickSourceOffset srcBold dispBold 1 = 3 := by decide
  simp [clickPrecisePos, h]

/-!
## Equivalence of the scan with the spec's dual-cursor description (claim C2)
-/

theorem bdsLoop_eq_scanSpec (s d : List Char) : ∀ (fuel i j : Nat) (acc : List Nat),
    i ≤ s.length → j ≤ d.length →
    bdsLoop s d fuel i j acc = scanSpec fuel (s.drop i) (d.drop j) (prevAt s i) i acc := by
  intro fuel
  induction fuel with
  | zero => intro i j acc _ _; rfl
  | succ n ih =>
    intro i j acc hi hj
    by_cases hilt : i < s.length
    · by_cases hjlt : j < d.length
      · obtain ⟨c, rest, hsd⟩ : ∃ c rest, s.drop i = c :: rest := by
          cases h : s.drop i with
          | nil =>
            exfalso
            have := congrArg List.length h
            simp at this
            omega
          | cons c r => exact ⟨c, r, rfl⟩
        obtain ⟨dc, drest, hdd⟩ : ∃ dc drest, d.drop j = dc :: drest := by
          cases h : d.drop j with
          | nil =>
            exfalso
            have := congrArg List.length h
            simp at this
            omega
          | cons dc r => exact ⟨dc, r, rfl⟩
        have hgc : getC s i = some c := drop_cons_getC hsd
        have hrest : s.drop (i+1) = rest := drop_cons_succ hsd
        have hgc1 : getC s (i+1) = rest.head? := by rw [getC_drop, hrest]
        have hgd : getC d j = some dc := drop_cons_getC hdd
        have hdrest : d.drop (j+1) = drest := drop_cons_succ hdd
        have heqItalic :
            (i = 0 ∨ optIsSpace (getC s (i-1)) ∨ i = s.length - 1 ∨
             optIsSpace rest.head? ∨ getC s (i-1) = some '*' ∨ getC s (i-1) = some '_') =
            (prevAt s i = none ∨ optIsSpace (prevAt s i) ∨ rest = [] ∨
             optIsSpace rest.head? ∨ prevAt s i = some '*' ∨ prevAt s i = some '_') := by
          have hlast : (i = s.length - 1) ↔ (rest = []) := by
            have hLL := congrArg List.length hsd
            rw [List.length_drop] at hLL
            simp only [List.length_cons] at hLL
            constructor
            · intro h
              have : rest.length = 0 := by omega
              exact List.eq_nil_of_length_eq_zero this
            · intro h
              subst h
              simp at hLL
              omega
          apply propext
          by_cases hi0 : i = 0
          · subst hi0
            simp [prevAt]
          · obtain ⟨pc, hpc⟩ : ∃ pc, getC s (i-1) = some pc := by
              unfold getC
              exact ⟨_, List.getElem?_eq_getElem (by omega)⟩
            have hprev : prevAt s i = some pc := by
              rw [prevAt, if_neg hi0, hpc]
            rw [hpc, hprev, hlast]
            simp [hi0]
        rw [hsd, hdd]
        simp only [bdsLoop, scanSpec]
        rw [if_pos ⟨hjlt, hilt⟩, hgc, hgc1, hgd]
        simp only [heqItalic, Option.some.injEq]
        split_ifs with h1 h2 h3 h4 h5
        · -- paired emphasis delimiter: skip two source characters
          have hlt : i + 1 < s.length := by
            rcases h1 with ⟨_, h⟩ | ⟨_, h⟩ <;> exact getC_lt (hgc1 ▸ h)
          rw [ih (i+2) j acc (by omega) hj, hdd, prevAt_add_two, hgc1,
            show s.drop (i+2) = rest.tail from by rw [← List.tail_drop, hrest]]
        · -- single emphasis delimiter: skip one
          rw [ih (i+1) j acc (by omega) hj, hdd, prevAt_add_one, hgc, hrest]
        · -- strikethrough pair
          have hlt : i + 1 < s.length := getC_lt (hgc1 ▸ h3.2)
          rw [ih (i+2) j acc (by omega) hj, hdd, prevAt_add_two, hgc1,
            show s.drop (i+2) = rest.tail from by rw [← List.tail_drop, hrest]]
        · -- backtick
          rw [ih (i+1) j acc (by omega) hj, hdd, prevAt_add_one, hgc, hrest]
        · -- character match
          rw [ih (i+1) (j+1) (acc ++ [i]) (by omega) (by omega), hdrest,
            prevAt_add_one, hgc, hrest]
        · -- mismatch
          rw [ih (i+1) j acc (by omega) hj, hdd, prevAt_add_one, hgc, hrest]
      · have hdrop : d.drop j = [] := List.drop_eq_nil_of_le (by omega)
        rw [hdrop]
        cases hsd : s.drop i with
        | nil =>
          simp only [bdsLoop, scanSpec]
          rw [if_neg (by omega)]
        | cons c rest =>
          simp only [bdsLoop, scanSpec]
          rw [if_neg (by omega)]
    · have hdrop : s.drop i = [] := List.drop_eq_nil_of_le (by omega)
      rw [hdrop]
      simp only [bdsLoop, scanSpec]
      rw [if_neg (by omega)]

/-- C2 (amended): the table builder is exactly the specified dual-cursor
scan, with the zero-width token set it actually recognizes (paired
emphasis/strikethrough delimiters, word-boundary single emphasis
delimiters, backticks).  Heading/quote/list markers and link brackets are
not token-checked; they are consumed by the mismatch branch instead. -/
theorem claim_C2_amended (s d : List Char) :
    buildDisplayToSourceMap s d = scanSpecTable s d := by
  rw [build_eq]
  simp only [scanSpecTable]
  rw [show bdsLoop s d (s.length + 1) 0 0 [] =
      scanSpec (s.length + 1) s d none 0 [] from by
    have := bdsLoop_eq_scanSpec s d (s.length + 1) 0 0 [] (by omega) (by omega)
    simpa [prevAt] using this]

/-- C2 (counterexample): the claim's token set includes link brackets, but
the builder does not skip a bracket; on source `"["`, display `"["` the
builder records a character match (table `[0, 1]`) while the claimed scan
would skip the bracket as zero-width syntax (table `[1, 1]`). -/
theorem claim_C2_counterexample :
    buildDisplayToSourceMap srcBracket srcBracket = [0, 1] ∧
    scanClaimedTable srcBracket srcBracket = [1, 1] ∧
    buildDisplayToSourceMap srcBracket srcBracket ≠ scanClaimedTable srcBracket srcBracket := by
  refine ⟨by decide, by decide, by decide⟩

/-!
## Sequential text search and sibling span ordering (claims C4, C9)
-/

theorem leadsList_length {nd hay : List Char} (h : leadsList nd hay = true) :
    nd.length ≤ hay.length := by
  induction nd generalizing hay with
  | nil => simp
  | cons a as ih =>
    cases hay with
    | nil => simp [leadsList] at h
    | cons b bs =>
      simp only [leadsList, Bool.and_eq_true] at h
      have := ih h.2
      simp only [List.length_cons]
      omega

theorem idxOfList_bound {hay nd : List Char} {k : Nat} (h : idxOfList hay nd = some k) :
    k + nd.length ≤ hay.length := by
  induction hay generalizing k with
  | nil =>
    unfold idxOfList at h
    split at h
    · rename_i hl
      cases nd with
      | nil => cases h; simp
      | cons a as => simp [leadsList] at hl
    · cases h
  | cons c tl ih =>
    unfold idxOfList at h
    split at h
    · rename_i hl
      cases h
      simpa using leadsList_length hl
    · rcases Option.map_eq_some'.mp h with ⟨k2, hk2, hk⟩
      subst hk
      have := ih hk2
      simp only [List.length_cons]
      omega

theorem skipHS_ge (t : List Char) : ∀ (fuel i : Nat), i ≤ skipHS t fuel i := by
  intro fuel
  induction fuel with
  | zero => intro i; simp [skipHS]
  | succ n ih =>
    intro i
    rw [skipHS]
    split
    · exact le_trans (by omega) (ih (i+1))
    · exact le_refl _

theorem skipDig_ge (t : List Char) : ∀ (fuel i : Nat), i ≤ skipDig t fuel i := by
  intro fuel
  induction fuel with
  | zero => intro i; simp [skipDig]
  | succ n ih =>
    intro i
    rw [skipDig]
    split
    · exact le_trans (by omega) (ih (i+1))
    · exact le_refl _

theorem idxOfFrom_ge {t : List Char} {i : Nat} {c : Char} {k : Nat}
    (h : idxOfFrom t i c = some k) : i ≤ k := by
  unfold idxOfFrom at h
  rcases Option.map_eq_some'.mp h with ⟨m, _, hk⟩
  omega

theorem stripLoop_inv (t : List Char) : ∀ (fuel i : Nat) (res : List Char) (omap : List Nat),
    res.length = omap.length → (∀ x ∈ omap, x < i) → (∀ x ∈ omap, x < t.length) →
    List.Pairwise (· < ·) omap →
    stripOk t (stripLoop t fuel i res omap) := by
  intro fuel
  induction fuel with
  | zero =>
    intro i res omap h1 _ h3 h4
    simp only [stripLoop]
    exact ⟨h1, h3, h4⟩
  | succ n ih =>
    intro i res omap h1 h2 h3 h4
    have step : ∀ i2 : Nat, i ≤ i2 → stripOk t (stripLoop t n i2 res omap) := fun i2 hle =>
      ih i2 res omap h1 (fun x hx => by have := h2 x hx; omega) h3 h4
    have stepK : i < t.length → ∀ i2 : Nat, i < i2 →
        stripOk t (stripLoop t n i2 (res ++ [t.getD i ' ']) (omap ++ [i])) := by
      intro hin i2 hlt
      refine ih i2 _ _ (by simp [h1]) ?_ ?_ ?_
      · intro x hx
        rcases List.mem_append.mp hx with hx | hx
        · have := h2 x hx; omega
        · simp at hx; omega
      · intro x hx
        rcases List.mem_append.mp hx with hx | hx
        · exact h3 x hx
        · simp at hx; omega
      · rw [List.pairwise_append]
        exact ⟨h4, List.pairwise_singleton _ _, fun a ha b hb => by
          simp at hb; subst hb; exact h2 a ha⟩
    rw [stripLoop]
    by_cases hin : i < t.length
    case neg =>
      rw [if_neg hin]
      exact ⟨h1, h3, h4⟩
    case pos =>
    rw [if_pos hin]
    by_cases hb1 : (getC t i = some '*' ∧ getC t (i+1) = some '*') ∨
        (getC t i = some '_' ∧ getC t (i+1) = some '_')
    case pos =>
      rw [if_pos hb1]
      exact step (i+2) (by omega)
    case neg =>
    rw [if_neg hb1]
    by_cases hb2 : (getC t i = some '*' ∨ getC t i = some '_') ∧
        (i = 0 ∨ optIsSpace (getC t (i-1)) ∨ i = t.length - 1 ∨ optIsSpace (getC t (i+1)))
    case pos =>
      rw [if_pos hb2]
      exact step (i+1) (by omega)
    case neg =>
    rw [if_neg hb2]
    by_cases hb3 : getC t i = some '~' ∧ getC t (i+1) = some '~'
    case pos =>
      rw [if_pos hb3]
      exact step (i+2) (by omega)
    case neg =>
    rw [if_neg hb3]
    by_cases hb4 : getC t i = some btick
    case pos =>
      rw [if_pos hb4]
      exact step (i+1) (by omega)
    case neg =>
    rw [if_neg hb4]
    by_cases hb5 : getC t i = some '[' ∨ getC t i = some ']' ∨
        (getC t i = some '(' ∧ getC t (i-1) = some ']') ∨
        (getC t i = some ')' ∧ 0 < res.length)
    case pos =>
      rw [if_pos hb5]
      by_cases hb5a : getC t i = some '(' ∧ getC t (i-1) = some ']'
      case pos =>
        rw [if_pos hb5a]
        cases hm : idxOfFrom t i ')' with
        | some ci =>
          have := idxOfFrom_ge hm
          exact step (ci+1) (by omega)
        | none => exact step (i+1) (by omega)
      case neg =>
        rw [if_neg hb5a]
        exact step (i+1) (by omega)
    case neg =>
    rw [if_neg hb5]
    by_cases hb6 : getC t i = some '#' ∧ (i = 0 ∨ getC t (i-1) = some '\n')
    case pos =>
      rw [if_pos hb6]
      have := skipHS_ge t (t.length + 1) i
      exact step _ (by omega)
    case neg =>
    rw [if_neg hb6]
    by_cases hb7 : getC t i = some '>' ∧ (i = 0 ∨ getC t (i-1) = some '\n')
    case pos =>
      rw [if_pos hb7]
      by_cases hb7a : getC t (i+1) = some ' '
      case pos =>
        rw [if_pos hb7a]
        exact step (i+2) (by omega)
      case neg =>
        rw [if_neg hb7a]
        exact step (i+1) (by omega)
    case neg =>
    rw [if_neg hb7]
    by_cases hb8 : (getC t i = some '-' ∨ getC t i = some '*' ∨ getC t i = some '+') ∧
        (i = 0 ∨ getC t (i-1) = some '\n') ∧ getC t (i+1) = some ' '
    case pos =>
      rw [if_pos hb8]
      exact step (i+2) (by omega)
    case neg =>
    rw [if_neg hb8]
    by_cases hb9 : optIsDigit (getC t i) ∧ (i = 0 ∨ getC t (i-1) = some '\n')
    case pos =>
      rw [if_pos hb9]
      by_cases hb9a : getC t (skipDig t (t.length + 1) i) = some '.' ∧
          getC t (skipDig t (t.length + 1) i + 1) = some ' '
      case pos =>
        rw [if_pos hb9a]
        have := skipDig_ge t (t.length + 1) i
        exact step _ (by omega)
      case neg =>
        rw [if_neg hb9a]
        exact stepK hin (i+1) (by omega)
    case neg =>
      rw [if_neg hb9]
      exact stepK hin (i+1) (by omega)

/-- When the direct or the stripped search locates the token, the returned
range is ordered, starts no earlier than the search position, and the new
search position is the range's end. -/
theorem findText_resolved {source : List Char} {pos : Nat} {text : List Char}
    (h : resolvesAt source pos text = true) :
    pos ≤ (findTextInSource source pos text).1.1 ∧
    (findTextInSource source pos text).1.1 ≤ (findTextInSource source pos text).1.2 ∧
    (findTextInSource source pos text).2 = (findTextInSource source pos text).1.2 := by
  unfold findTextInSource
  cases h1 : idxOfList (source.drop pos) text with
  | some idx =>
    simp only [h1]
    exact ⟨by omega, by omega, by trivial⟩
  | none =>
    cases h2 : idxOfList (stripMarkdown (source.drop pos)).1 text with
    | none =>
      exfalso
      unfold resolvesAt at h
      rw [h1, h2] at h
      simp at h
    | some idx =>
      simp only [h1, h2]
      have htxt : text ≠ [] := by
        intro he
        subst he
        cases hd : source.drop pos with
        | nil => rw [hd] at h1; simp [idxOfList, leadsList] at h1
        | cons a as => rw [hd] at h1; simp [idxOfList, leadsList] at h1
      have htl : 1 ≤ text.length := by
        cases text with
        | nil => exact absurd rfl htxt
        | cons a as => simp
      have hOk : stripOk (source.drop pos) (stripMarkdown (source.drop pos)) :=
        stripLoop_inv (source.drop pos) ((source.drop pos).length + 1) 0 [] [] rfl
          (by simp) (by simp) (by simp)
      obtain ⟨g1, g2, g3⟩ := hOk
      have hbound := idxOfList_bound h2
      have hmapLen : (stripMarkdown (source.drop pos)).1.length =
          (stripMarkdown (source.drop pos)).2.length := g1
      have hiA : idx < (stripMarkdown (source.drop pos)).2.length := by omega
      have hiB : idx + text.length - 1 < (stripMarkdown (source.drop pos)).2.length := by omega
      have hmono : (stripMarkdown (source.drop pos)).2.getD idx idx ≤
          (stripMarkdown (source.drop pos)).2.getD (idx + text.length - 1)
            (idx + text.length - 1) := by
        rcases Nat.lt_or_ge idx (idx + text.length - 1) with hlt | hge
        · rw [List.getD_eq_getElem _ _ hiA, List.getD_eq_getElem _ _ hiB]
          exact le_of_lt (List.pairwise_iff_getElem.mp g3 _ _ hiA hiB hlt)
        · have heq : idx + text.length - 1 = idx := by omega
          rw [heq]
      exact ⟨by omega, by omega, by trivial⟩

theorem renderTokens_chain : ∀ (ts : List (List Char)) (st : RenderState),
    allResolve st.source st.searchPosition ts = true →
    (∀ sp ∈ (renderTokens st ts).1,
      st.searchPosition ≤ sp.charStart ∧ sp.charStart ≤ sp.charEnd) ∧
    List.Chain' (fun A B => A.charEnd ≤ B.charStart) (renderTokens st ts).1 := by
  intro ts
  induction ts with
  | nil =>
    intro st _
    exact ⟨by simp [renderTokens], by simp [renderTokens]⟩
  | cons tk ts ih =>
    intro st h
    unfold allResolve at h
    by_cases htk : tk = []
    · rw [if_pos htk] at h
      subst htk
      simp only [renderTokens, textRule, if_pos rfl]
      exact ih st h
    · rw [if_neg htk] at h
      rw [Bool.and_eq_true] at h
      obtain ⟨hres, hrest⟩ := h
      have key := findText_resolved hres
      have ihr := ih { st with searchPosition := (findTextInSource st.source st.searchPosition tk).2 }
        (by simpa using hrest)
      simp only [renderTokens, textRule, if_neg htk]
      constructor
      · intro sp hsp
        rcases List.mem_cons.mp hsp with hsp | hsp
        · subst hsp
          exact ⟨key.1, key.2.1⟩
        · have := (ihr.1 sp hsp).1
          have := (ihr.1 sp hsp).2
          refine ⟨?_, by assumption⟩
          have h1 := key.1
          have h2 := key.2.1
          have h3 := key.2.2
          simp only at *
          omega
      · rw [List.chain'_cons']
        refine ⟨?_, ihr.2⟩
        intro b hb
        have hmem : b ∈ (renderTokens
            { st with searchPosition := (findTextInSource st.source st.searchPosition tk).2 }
            ts).1 := List.mem_of_mem_head? hb
        have := (ihr.1 b hmem).1
        have h3 := key.2.2
        simp only at *
        omega

/-- C4 (amended): when every inline text token of the pass is located by
the direct or the stripped search (the fallback branch of
`findTextInSource` never fires), consecutive emitted spans satisfy
`A.sourceEnd ≤ B.sourceStart` and every span is ordered. -/
theorem claim_C4_amended (st : RenderState) (ts : List (List Char))
    (h : allResolve st.source st.searchPosition ts = true) :
    List.Chain' (fun A B => A.charEnd ≤ B.charStart) (renderTokens st ts).1 ∧
    ∀ sp ∈ (renderTokens st ts).1, sp.charStart ≤ sp.charEnd := by
  obtain ⟨h1, h2⟩ := renderTokens_chain ts st h
  exact ⟨h2, fun sp hsp => (h1 sp hsp).2⟩

theorem claim_C4_amended_witness :
    allResolve (initRenderState srcXYZ).source
      (initRenderState srcXYZ).searchPosition
      [tokX, tokY, tokZ2] = true ∧
    (List.Chain' (fun A B => A.charEnd ≤ B.charStart)
      (renderTokens (initRenderState srcXYZ) [tokX, tokY, tokZ2]).1 ∧
     ∀ sp ∈ (renderTokens (initRenderState srcXYZ)
         [tokX, tokY, tokZ2]).1, sp.charStart ≤ sp.charEnd) :=
  ⟨by decide,
   claim_C4_amended (initRenderState srcXYZ) [tokX, tokY, tokZ2]
     (by decide)⟩

/-- C4 (counterexample): a token the search cannot locate (as happens when
the typographer transforms token text away from the source) takes the
fallback branch, which does not advance `searchPosition`; the next token
can then be found at or before the fallback span's end, yielding
overlapping sibling spans.  Source `"ab"` with token texts `"z"`, `"a"`
emits spans `(0,1), (0,1)`, violating `A.sourceEnd ≤ B.sourceStart`. -/
theorem claim_C4_counterexample :
    ((renderTokens (initRenderState srcAB) [tokZ, tokA]).1.map
      fun sp => (sp.charStart, sp.charEnd)) = [(0, 1), (0, 1)] ∧
    ¬ List.Chain' (fun A B => A.charEnd ≤ B.charStart)
        (renderTokens (initRenderState srcAB) [tokZ, tokA]).1 := by
  constructor
  · decide
  · have e : (renderTokens (initRenderState srcAB) [tokZ, tokA]).1 =
        [⟨0, 1, tokA⟩, ⟨0, 1, tokA⟩] := by decide
    rw [e]
    intro h
    have := (List.chain'_cons.mp h).1
    simp at this

theorem renderTokens_source : ∀ (ts : List (List Char)) (st : RenderState),
    (renderTokens st ts).2.source = st.source := by
  intro ts
  induction ts with
  | nil => intro st; rfl
  | cons tk ts ih =>
    intro st
    simp only [renderTokens, textRule]
    split
    · exact ih st
    · exact ih _

/-- C9: the annotating renderer is deterministic and does not mutate its
input: the output of `md.render(src)` is independent of whatever render
environment an earlier call left behind (the per-render state, including
`searchPosition = 0`, is rebuilt from `src` alone), and the state after
the pass still carries `src` unchanged. -/
theorem claim_C9_deterministic (envA envB : Option RenderState) (src : List Char)
    (ts : List (List Char)) :
    mdRender envA src ts = mdRender envB src ts ∧
    (mdRender envA src ts).2.source = src ∧
    (initRenderState src).searchPosition = 0 :=
  ⟨rfl, renderTokens_source ts (initRenderState src), rfl⟩

/-!
## Cursor overlay (claims C6, C7)
-/

theorem isCursorN_false {x : VNode} (h : cursorFreeN x = true) : isCursorN x = false := by
  cases x with
  | text s => rfl
  | elem a ks =>
    simp only [cursorFreeN, Bool.and_eq_true, Bool.not_eq_true'] at h
    simpa [isCursorN] using h.1

theorem cursorFreeL_cons {x : VNode} {xs : VList} (h : cursorFreeL (.cons x xs) = true) :
    cursorFreeN x = true ∧ cursorFreeL xs = true := by
  cases x with
  | text s => exact ⟨rfl, h⟩
  | elem a ks =>
    simp only [cursorFreeL, Bool.and_eq_true] at h
    refine ⟨?_, h.2⟩
    simp [cursorFreeN, h.1.1, h.1.2]

theorem cursorFreeN_elem {a : EAttrs} {ks : VList} (h : cursorFreeN (.elem a ks) = true) :
    cursorFreeL ks = true := by
  simp only [cursorFreeN, Bool.and_eq_true] at h
  exact h.2

mutual
theorem remCurN_cursorFree : ∀ (x : VNode), cursorFreeN x = true → remCurN x = (x, false)
  | .text _, _ => rfl
  | .elem a ks, h => by
    rw [remCurN, remCurL_cursorFree ks (cursorFreeN_elem h)]
theorem remCurL_cursorFree : ∀ (l : VList), cursorFreeL l = true → remCurL l = (l, false)
  | .nil, _ => rfl
  | .cons x xs, h => by
    obtain ⟨hx, hxs⟩ := cursorFreeL_cons h
    cases xs with
    | nil =>
      rw [remCurL, if_neg (by simp [isCursorN_false hx]),
        remCurN_cursorFree x hx, if_neg (by simp)]
    | cons y ys =>
      obtain ⟨hy, _⟩ := cursorFreeL_cons hxs
      rw [remCurL, if_neg (by simp [isCursorN_false hx]),
        remCurN_cursorFree x hx, if_neg (by simp)]
      rw [remCurL_cursorFree (.cons y ys) hxs]
      rw [if_neg (by simp [isCursorN_false hy])]
end

theorem remCurRoot_cursorFree {root : VNode} (h : cursorFreeRoot root = true) :
    remCurRoot root = root := by
  cases root with
  | text s => rfl
  | elem a ks =>
    rw [remCurRoot, remCurL_cursorFree ks h]

theorem pickLoop_none (pos : Int) : ∀ (l : List SpanInfo) (idx : Nat),
    (∀ si ∈ l, pos < si.sA ∨ si.eA < pos) →
    pickLoop pos l idx none = none := by
  intro l
  induction l with
  | nil => intro idx _; rfl
  | cons sp rest ih =>
    intro idx h
    have hsp := h sp (by simp)
    have hrest : ∀ si ∈ rest, pos < si.sA ∨ si.eA < pos := fun si hsi => h si (by simp [hsi])
    rw [pickLoop]
    split_ifs with h1 h2 h3
    · exact ih _ hrest
    · exact ih _ hrest
    · exfalso
      rcases hsp with hlt | hlt
      · omega
      · omega
    · exact ih _ hrest

/-- C7: when the source position lies outside the range of every annotated
inline-text span (for example on an empty line between two paragraphs),
`insertCursorAtPosition` selects no target, returns `false`, and leaves
the tree untouched rather than guessing a neighboring node. -/
theorem claim_C7_noGuess (root : VNode) (pos : Int)
    (hcf : cursorFreeRoot root = true)
    (hout : ∀ si ∈ collectSpans root, pos < si.sA ∨ si.eA < pos) :
    insertCursorAtPosition root pos = (false, root) := by
  simp only [insertCursorAtPosition, remCurRoot_cursorFree hcf]
  rw [pickLoop_none pos (collectSpans root) 0 hout]
  rfl

theorem claim_C7_witness :
    cursorFreeRoot egRoot = true ∧
    (∀ si ∈ collectSpans egRoot, (7 : Int) < si.sA ∨ si.eA < 7) ∧
    insertCursorAtPosition egRoot 7 = (false, egRoot) :=
  ⟨by decide, by decide,
   claim_C7_noGuess egRoot 7 (by decide) (by decide)⟩

theorem mergeAt_text_text (a0 c0 : List Char) (ys2 : VList) :
    mergeAt (.text a0) (.cons (.text c0) ys2) = (.cons (.text (a0 ++ c0)) ys2, true) := rfl

theorem mergeAt_elem (a : EAttrs) (ks ys : VList) :
    mergeAt (.elem a ks) ys = (.cons (.elem a ks) ys, true) := rfl

theorem mergeAt_text_noText {s : List Char} {ys : VList} (h : headIsText ys = false) :
    mergeAt (.text s) ys = (.cons (.text s) ys, true) := by
  cases ys with
  | nil => rfl
  | cons z zs =>
    cases z with
    | text c => simp [headIsText] at h
    | elem a ks => rfl

theorem normalL_cons_text {s : List Char} {tl : VList}
    (h : normalL (.cons (.text s) tl) = true) :
    headIsText tl = false ∧ normalL tl = true := by
  simp only [normalL, Bool.and_eq_true, Bool.not_eq_true'] at h
  exact h

theorem normalL_cons_elem {a : EAttrs} {ks tl : VList}
    (h : normalL (.cons (.elem a ks) tl) = true) :
    normalL ks = true ∧ normalL tl = true := by
  simp only [normalL, Bool.and_eq_true] at h
  exact h

theorem insTextL_cons_text_zero (s : List Char) (tl : VList) (act : InsAct) :
    insTextL (.cons (.text s) tl) 0 act = (vappend (applyAct s act) tl, none) := by
  rw [insTextL, if_pos rfl]

theorem insTextL_cons_text_succ {k : Nat} (hk : k ≠ 0) (s : List Char) (tl : VList)
    (act : InsAct) :
    insTextL (.cons (.text s) tl) k act =
      (.cons (.text s) (insTextL tl (k-1) act).1, (insTextL tl (k-1) act).2) := by
  rw [insTextL, if_neg hk]

theorem insTextL_cons_elem_none {a : EAttrs} {ks0 tl : VList} {k : Nat} {act : InsAct}
    (h : (insTextL ks0 k act).2 = none) :
    insTextL (.cons (.elem a ks0) tl) k act =
      (.cons (.elem a (insTextL ks0 k act).1) tl, none) := by
  rw [insTextL, h]

theorem insTextL_cons_elem_some {a : EAttrs} {ks0 tl : VList} {k k2 : Nat} {act : InsAct}
    (h : (insTextL ks0 k act).2 = some k2) :
    insTextL (.cons (.elem a ks0) tl) k act =
      (.cons (.elem a ks0) (insTextL tl k2 act).1, (insTextL tl k2 act).2) := by
  rw [insTextL, h]

theorem mutSpanL_cons_text (s : List Char) (tl : VList) (n : Nat) (m : InsMode) :
    mutSpanL (.cons (.text s) tl) n m =
      (.cons (.text s) (mutSpanL tl n m).1, (mutSpanL tl n m).2) := by
  rw [mutSpanL]

theorem mutSpanL_cons_elem_sel_zero {a : EAttrs} (hsel : isSelSpan a = true)
    (ks tl : VList) (m : InsMode) :
    mutSpanL (.cons (.elem a ks) tl) 0 m =
      (.cons (.elem a (applyModeToKids m ks)) tl, none) := by
  rw [mutSpanL, if_pos hsel, if_pos rfl]

theorem mutSpanL_cons_elem_sel_none {a : EAttrs} {ks tl : VList} {n : Nat} {m : InsMode}
    (hsel : isSelSpan a = true) (hn : n ≠ 0)
    (h : (mutSpanL ks (n-1) m).2 = none) :
    mutSpanL (.cons (.elem a ks) tl) n m =
      (.cons (.elem a (mutSpanL ks (n-1) m).1) tl, none) := by
  rw [mutSpanL, if_pos hsel, if_neg hn, h]

theorem mutSpanL_cons_elem_sel_some {a : EAttrs} {ks tl : VList} {n n2 : Nat} {m : InsMode}
    (hsel : isSelSpan a = true) (hn : n ≠ 0)
    (h : (mutSpanL ks (n-1) m).2 = some n2) :
    mutSpanL (.cons (.elem a ks) tl) n m =
      (.cons (.elem a ks) (mutSpanL tl n2 m).1, (mutSpanL tl n2 m).2) := by
  rw [mutSpanL, if_pos hsel, if_neg hn, h]

theorem mutSpanL_cons_elem_nosel_none {a : EAttrs} {ks tl : VList} {n : Nat} {m : InsMode}
    (hsel : isSelSpan a = false) (h : (mutSpanL ks n m).2 = none) :
    mutSpanL (.cons (.elem a ks) tl) n m =
      (.cons (.elem a (mutSpanL ks n m).1) tl, none) := by
  rw [mutSpanL, if_neg (by simp [hsel]), h]

theorem mutSpanL_cons_elem_nosel_some {a : EAttrs} {ks tl : VList} {n n2 : Nat} {m : InsMode}
    (hsel : isSelSpan a = false) (h : (mutSpanL ks n m).2 = some n2) :
    mutSpanL (.cons (.elem a ks) tl) n m =
      (.cons (.elem a ks) (mutSpanL tl n2 m).1, (mutSpanL tl n2 m).2) := by
  rw [mutSpanL, if_neg (by simp [hsel]), h]

theorem remCurL_cons_cursor {y : VNode} (hy : isCursorN y = true) (ys : VList) :
    remCurL (.cons y ys) = (ys, true) := by
  cases ys with
  | nil => rw [remCurL, if_pos hy]
  | cons z zs => rw [remCurL, if_pos hy]

theorem remCurL_cons_elem {a : EAttrs} {ks : VList} {xs ws : VList}
    (hcf : cursorFreeN (.elem a ks) = true) (h : remCurL xs = (ws, true)) :
    remCurL (.cons (.elem a ks) xs) = (.cons (.elem a ks) ws, true) := by
  cases xs with
  | nil => simp [remCurL] at h
  | cons y ys =>
    rw [remCurL, if_neg (by simp [isCursorN_false hcf]),
      remCurN_cursorFree _ hcf, if_neg (by simp)]
    by_cases hy : isCursorN y = true
    · rw [if_pos hy]
      have hws : ys = ws := congrArg Prod.fst ((remCurL_cons_cursor hy ys).symm.trans h)
      subst hws
      exact mergeAt_elem a ks ys
    · rw [if_neg hy, h]

theorem remCurL_cons_text {s : List Char} {xs ws : VList}
    (hnc : headIsCursor xs = false) (h : remCurL xs = (ws, true)) :
    remCurL (.cons (.text s) xs) = (.cons (.text s) ws, true) := by
  cases xs with
  | nil => simp [remCurL] at h
  | cons y ys =>
    have hy : isCursorN y = false := by simpa [headIsCursor] using hnc
    rw [remCurL, if_neg (by simp [isCursorN]),
      show remCurN (.text s) = (.text s, false) from rfl, if_neg (by simp),
      if_neg (by simp [hy]), h]

theorem insTextL_headIsCursor : ∀ (tl : VList) (k : Nat) (act : InsAct),
    cursorFreeL tl = true → headIsText tl = false →
    headIsCursor (insTextL tl k act).1 = false
  | .nil, _, _, _, _ => rfl
  | .cons (.text s) tl2, k, act, _, hht => by simp [headIsText] at hht
  | .cons (.elem a ks) tl2, k, act, hcf, _ => by
    obtain ⟨hx, _⟩ := cursorFreeL_cons hcf
    have ha : (a.idAttr == some cursorId) = false := by
      simpa [isCursorN] using isCursorN_false hx
    cases hres : (insTextL ks k act).2 with
    | none =>
      rw [insTextL_cons_elem_none hres]
      simp [headIsCursor, isCursorN, ha]
    | some k2 =>
      rw [insTextL_cons_elem_some hres]
      simp [headIsCursor, isCursorN, ha]

theorem mutSpanL_headIsCursor (tl : VList) (n : Nat) (m : InsMode)
    (hcf : cursorFreeL tl = true) : headIsCursor (mutSpanL tl n m).1 = false := by
  cases tl with
  | nil => rfl
  | cons x tl2 =>
    obtain ⟨hx, _⟩ := cursorFreeL_cons hcf
    cases x with
    | text s => rw [mutSpanL_cons_text]; rfl
    | elem a ks =>
      have ha : (a.idAttr == some cursorId) = false := by
        simpa [isCursorN] using isCursorN_false hx
      by_cases hsel : isSelSpan a = true
      · by_cases hn : n = 0
        · subst hn
          rw [mutSpanL_cons_elem_sel_zero hsel]
          simp [headIsCursor, isCursorN, ha]
        · cases hres : (mutSpanL ks (n-1) m).2 with
          | none =>
            rw [mutSpanL_cons_elem_sel_none hsel hn hres]
            simp [headIsCursor, isCursorN, ha]
          | some n2 =>
            rw [mutSpanL_cons_elem_sel_some hsel hn hres]
            simp [headIsCursor, isCursorN, ha]
      · have hsel2 : isSelSpan a = false := by simpa using hsel
        cases hres : (mutSpanL ks n m).2 with
        | none =>
          rw [mutSpanL_cons_elem_nosel_none hsel2 hres]
          simp [headIsCursor, isCursorN, ha]
        | some n2 =>
          rw [mutSpanL_cons_elem_nosel_some hsel2 hres]
          simp [headIsCursor, isCursorN, ha]

theorem remCurL_append_cursor : ∀ (ks : VList), cursorFreeL ks = true →
    remCurL (vappend ks (.cons cursorNode .nil)) = (ks, true)
  | .nil, _ => by
    rw [show vappend .nil (.cons cursorNode .nil) = .cons cursorNode .nil from rfl,
      remCurL, if_pos (by decide)]
  | .cons x tl, h => by
    obtain ⟨hx, htl⟩ := cursorFreeL_cons h
    rw [show vappend (.cons x tl) (.cons cursorNode .nil) =
      .cons x (vappend tl (.cons cursorNode .nil)) from rfl]
    cases tl with
    | nil =>
      rw [show vappend .nil (.cons cursorNode .nil) = .cons cursorNode .nil from rfl,
        remCurL, if_neg (by simp [isCursorN_false hx]), remCurN_cursorFree x hx,
        if_neg (by simp), if_pos (by decide)]
      cases x with
      | text s => exact mergeAt_text_noText rfl
      | elem a ks => exact mergeAt_elem a ks .nil
    | cons z tl2 =>
      have hrec := remCurL_append_cursor (.cons z tl2) htl
      have hz : cursorFreeN z = true := (cursorFreeL_cons htl).1
      rw [show vappend (.cons z tl2) (.cons cursorNode .nil) =
        .cons z (vappend tl2 (.cons cursorNode .nil)) from rfl] at hrec ⊢
      cases x with
      | text s =>
        refine remCurL_cons_text ?_ hrec
        simp [headIsCursor, isCursorN_false hz]
      | elem a ks => exact remCurL_cons_elem hx hrec

/-- A list headed by an element whose children were restored by
`removeCursor` restores as a whole. -/
theorem remCurL_cons_elemRestored {a : EAttrs} {k2 ks0 : VList} (xs : VList)
    (ha : (a.idAttr == some cursorId) = false)
    (h : remCurL k2 = (ks0, true)) :
    remCurL (.cons (.elem a k2) xs) = (.cons (.elem a ks0) xs, true) := by
  have ha2 : isCursorN (VNode.elem a k2) = false := by simpa [isCursorN] using ha
  cases xs with
  | nil =>
    rw [remCurL, if_neg (by simp [ha2]),
      show remCurN (VNode.elem a k2) = (VNode.elem a ks0, true) from by rw [remCurN, h],
      if_pos rfl]
  | cons y ys =>
    rw [remCurL, if_neg (by simp [ha2]),
      show remCurN (VNode.elem a k2) = (VNode.elem a ks0, true) from by rw [remCurN, h],
      if_pos rfl]

/-- Inserting the cursor at the `k`-th text node of a cursor-free
normalized child list and then removing it restores the list exactly; when
no `k`-th text node exists the list is unchanged. -/
theorem insTextL_restore : ∀ (ks : VList) (k : Nat) (act : InsAct),
    cursorFreeL ks = true → normalL ks = true →
    ((insTextL ks k act).2 = none → remCurL (insTextL ks k act).1 = (ks, true)) ∧
    (∀ k2, (insTextL ks k act).2 = some k2 → (insTextL ks k act).1 = ks)
  | .nil, k, act, _, _ => by
    refine ⟨fun h => by simp [insTextL] at h, fun k2 _ => rfl⟩
  | .cons (.text s) tl, k, act, hcf, hn => by
    obtain ⟨_, htl⟩ := cursorFreeL_cons hcf
    obtain ⟨hht, hntl⟩ := normalL_cons_text hn
    by_cases hk : k = 0
    · subst hk
      rw [insTextL_cons_text_zero]
      refine ⟨fun _ => ?_, fun k2 h => by simp at h⟩
      cases act with
      | actBefore =>
        show remCurL (.cons cursorNode (.cons (.text s) tl)) = _
        exact remCurL_cons_cursor (by decide) _
      | actAfter =>
        show remCurL (.cons (.text s) (.cons cursorNode tl)) = _
        rw [remCurL, if_neg (by simp [isCursorN]),
          show remCurN (.text s) = (.text s, false) from rfl, if_neg (by simp),
          if_pos (by decide)]
        exact mergeAt_text_noText hht
      | actSplit off =>
        show remCurL (.cons (.text (List.take off s))
          (.cons cursorNode (.cons (.text (List.drop off s)) tl))) = _
        rw [remCurL, if_neg (by simp [isCursorN]),
          show remCurN (.text (List.take off s)) = (.text (List.take off s), false) from rfl,
          if_neg (by simp), if_pos (by decide), mergeAt_text_text, List.take_append_drop]
    · rw [insTextL_cons_text_succ hk]
      obtain ⟨ih1, ih2⟩ := insTextL_restore tl (k-1) act htl hntl
      refine ⟨fun h => ?_, fun k2 h => ?_⟩
      · have hh := insTextL_headIsCursor tl (k-1) act htl hht
        exact remCurL_cons_text hh (ih1 h)
      · rw [ih2 k2 h]
  | .cons (.elem a ks0) tl, k, act, hcf, hn => by
    obtain ⟨hx, htl⟩ := cursorFreeL_cons hcf
    obtain ⟨hnk, hntl⟩ := normalL_cons_elem hn
    have hks0 : cursorFreeL ks0 = true := cursorFreeN_elem hx
    have ha : (a.idAttr == some cursorId) = false := by
      simpa [isCursorN] using isCursorN_false hx
    obtain ⟨ih1, ih2⟩ := insTextL_restore ks0 k act hks0 hnk
    cases hres : (insTextL ks0 k act).2 with
    | none =>
      rw [insTextL_cons_elem_none hres]
      refine ⟨fun _ => ?_, fun k2 h => by simp at h⟩
      exact remCurL_cons_elemRestored tl ha (ih1 hres)
    | some k2a =>
      rw [insTextL_cons_elem_some hres]
      obtain ⟨ihtl1, ihtl2⟩ := insTextL_restore tl k2a act htl hntl
      refine ⟨fun h => ?_, fun k3 h => ?_⟩
      · exact remCurL_cons_elem hx (ihtl1 h)
      · rw [ihtl2 k3 h]

/-- Round trip through the `n`-th selector-matching span: removal restores
the mutated list; when the mutation found no target (or the in-span text
index was out of range) the list is unchanged. -/
theorem mutSpanL_restore : ∀ (ks : VList) (n : Nat) (m : InsMode),
    cursorFreeL ks = true → normalL ks = true →
    ((mutSpanL ks n m).2 = none →
      remCurL (mutSpanL ks n m).1 = (ks, true) ∨ (mutSpanL ks n m).1 = ks) ∧
    (∀ n2, (mutSpanL ks n m).2 = some n2 → (mutSpanL ks n m).1 = ks)
  | .nil, n, m, _, _ => ⟨fun h => by simp [mutSpanL] at h, fun n2 _ => rfl⟩
  | .cons (.text s) tl, n, m, hcf, hn => by
    obtain ⟨_, htl⟩ := cursorFreeL_cons hcf
    obtain ⟨hht, hntl⟩ := normalL_cons_text hn
    obtain ⟨ih1, ih2⟩ := mutSpanL_restore tl n m htl hntl
    rw [mutSpanL_cons_text]
    refine ⟨fun h => ?_, fun n2 h => ?_⟩
    · rcases ih1 h with hL | hR
      · exact Or.inl (remCurL_cons_text (mutSpanL_headIsCursor tl n m htl) hL)
      · exact Or.inr (by rw [hR])
    · rw [ih2 n2 h]
  | .cons (.elem a ks0) tl, n, m, hcf, hn => by
    obtain ⟨hx, htl⟩ := cursorFreeL_cons hcf
    obtain ⟨hnk, hntl⟩ := normalL_cons_elem hn
    have hks0 : cursorFreeL ks0 = true := cursorFreeN_elem hx
    have ha : (a.idAttr == some cursorId) = false := by
      simpa [isCursorN] using isCursorN_false hx
    by_cases hsel : isSelSpan a = true
    · by_cases hn0 : n = 0
      · subst hn0
        rw [mutSpanL_cons_elem_sel_zero hsel]
        refine ⟨fun _ => ?_, fun n2 h => by simp at h⟩
        cases m with
        | appendEl =>
          exact Or.inl (remCurL_cons_elemRestored tl ha (remCurL_append_cursor ks0 hks0))
        | prependEl =>
          exact Or.inl (remCurL_cons_elemRestored tl ha (remCurL_cons_cursor (by decide) ks0))
        | onText k act =>
          cases hca : (insTextL ks0 k act).2 with
          | none =>
            exact Or.inl (remCurL_cons_elemRestored tl ha
              ((insTextL_restore ks0 k act hks0 hnk).1 hca))
          | some k2 =>
            refine Or.inr ?_
            show VList.cons (VNode.elem a (insTextL ks0 k act).1) tl = _
            rw [(insTextL_restore ks0 k act hks0 hnk).2 k2 hca]
      · obtain ⟨ihk1, ihk2⟩ := mutSpanL_restore ks0 (n-1) m hks0 hnk
        cases hres : (mutSpanL ks0 (n-1) m).2 with
        | none =>
          rw [mutSpanL_cons_elem_sel_none hsel hn0 hres]
          refine ⟨fun _ => ?_, fun n2 h => by simp at h⟩
          rcases ihk1 hres with hL | hR
          · exact Or.inl (remCurL_cons_elemRestored tl ha hL)
          · exact Or.inr (by rw [hR])
        | some n2a =>
          rw [mutSpanL_cons_elem_sel_some hsel hn0 hres]
          obtain ⟨ihtl1, ihtl2⟩ := mutSpanL_restore tl n2a m htl hntl
          refine ⟨fun h => ?_, fun n3 h => ?_⟩
          · rcases ihtl1 h with hL | hR
            · exact Or.inl (remCurL_cons_elem hx hL)
            · exact Or.inr (by rw [hR])
          · rw [ihtl2 n3 h]
    · have hsel2 : isSelSpan a = false := by simpa using hsel
      obtain ⟨ihk1, ihk2⟩ := mutSpanL_restore ks0 n m hks0 hnk
      cases hres : (mutSpanL ks0 n m).2 with
      | none =>
        rw [mutSpanL_cons_elem_nosel_none hsel2 hres]
        refine ⟨fun _ => ?_, fun n2 h => by simp at h⟩
        rcases ihk1 hres with hL | hR
        · exact Or.inl (remCurL_cons_elemRestored tl ha hL)
        · exact Or.inr (by rw [hR])
      | some n2a =>
        rw [mutSpanL_cons_elem_nosel_some hsel2 hres]
        obtain ⟨ihtl1, ihtl2⟩ := mutSpanL_restore tl n2a m htl hntl
        refine ⟨fun h => ?_, fun n3 h => ?_⟩
        · rcases ihtl1 h with hL | hR
          · exact Or.inl (remCurL_cons_elem hx hL)
          · exact Or.inr (by rw [hR])
        · rw [ihtl2 n3 h]

theorem remCurL_mutSpanL_fst (ks : VList) (n : Nat) (m : InsMode)
    (hcf : cursorFreeL ks = true) (hn : normalL ks = true) :
    (remCurL (mutSpanL ks n m).1).1 = ks := by
  obtain ⟨h1, h2⟩ := mutSpanL_restore ks n m hcf hn
  cases hres : (mutSpanL ks n m).2 with
  | none =>
    rcases h1 hres with hL | hR
    · rw [hL]
    · rw [hR, remCurL_cursorFree ks hcf]
  | some n2 =>
    rw [h2 n2 hres, remCurL_cursorFree ks hcf]

/-- C6: inserting a cursor marker at any source position into a cursor-free
normalized preview tree and then removing it is an exact round trip: the
tree (a split text node merged back into one, all structure included) and
hence its text content are byte-identical to before insertion. -/
theorem claim_C6_roundTrip (root : VNode) (pos : Int)
    (hcf : cursorFreeRoot root = true) (hn : normalRoot root = true) :
    remCurRoot (insertCursorAtPosition root pos).2 = root ∧
    textContentN (remCurRoot (insertCursorAtPosition root pos).2) = textContentN root := by
  have hmain : remCurRoot (insertCursorAtPosition root pos).2 = root := by
    cases root with
    | text s => rfl
    | elem a ks =>
      have hr0 : remCurRoot (VNode.elem a ks) = VNode.elem a ks := remCurRoot_cursorFree hcf
      have happ : ∀ (n : Nat) (mode : InsMode),
          remCurRoot (applySpanMut (VNode.elem a ks) n mode) = VNode.elem a ks := by
        intro n mode
        show VNode.elem a (remCurL (mutSpanL ks n mode).1).1 = VNode.elem a ks
        rw [remCurL_mutSpanL_fst ks n mode hcf hn]
      simp only [insertCursorAtPosition, hr0]
      cases hpick : pickLoop pos (collectSpans (VNode.elem a ks)) 0 none with
      | none => exact hr0
      | some nsp =>
        obtain ⟨n, sp⟩ := nsp
        show remCurRoot (insertWithWalk (VNode.elem a ks) pos n sp
          (walkRuns (pos - sp.sA) (sp.eA - sp.sA) 0 0 sp.runs)).2 = VNode.elem a ks
        cases hw : walkRuns (pos - sp.sA) (sp.eA - sp.sA) 0 0 sp.runs with
        | some ko =>
          obtain ⟨k, off⟩ := ko
          exact happ n _
        | none =>
          rw [insertWithWalk]
          by_cases hae : pos = sp.eA ∧ sp.runs ≠ []
          · rw [if_pos hae]
            exact happ n _
          · rw [if_neg hae]
            cases hfk : sp.firstKidLen with
            | some L => exact happ n _
            | none => exact happ n _
  exact ⟨hmain, by rw [hmain]⟩

theorem claim_C6_witness :
    cursorFreeRoot egRoot = true ∧ normalRoot egRoot = true ∧
    (remCurRoot (insertCursorAtPosition egRoot 1).2 = egRoot ∧
     textContentN (remCurRoot (insertCursorAtPosition egRoot 1).2) = textContentN egRoot) :=
  ⟨by decide, by decide, claim_C6_roundTrip egRoot 1 (by decide) (by decide)⟩

/-!
## Selection → source range (claim C8)
-/

/-- C8: when both selection endpoints resolve to source positions, the
selection maps to a single ordered range (`start ≤ end`), also when the
endpoints lie in different annotated nodes: the start is the smaller and
the end the larger of the two independently resolved positions. -/
theorem claim_C8_selectionRange (root : VNode) (sRef eRef : Nat × Nat) (p q : Int)
    (hne : sRef ≠ eRef)
    (hp : getPositionFromTextNode root sRef.1 sRef.2 = some p)
    (hq : getPositionFromTextNode root eRef.1 eRef.2 = some q) :
    getSelectionSourceRange root sRef eRef = some (min p q, max p q) ∧
    min p q ≤ max p q := by
  unfold getSelectionSourceRange
  rw [if_neg hne, hp, hq]
  exact ⟨rfl, min_le_max⟩

theorem claim_C8_witness :
    ((0, 1) : Nat × Nat) ≠ ((1, 1) : Nat × Nat) ∧
    getPositionFromTextNode egRoot 0 1 = some 1 ∧
    getPositionFromTextNode egRoot 1 1 = some 11 ∧
    (getSelectionSourceRange egRoot (0, 1) (1, 1) = some (min 1 11, max 1 11) ∧
      (min 1 11 : Int) ≤ max 1 11) :=
  ⟨by decide, by decide, by decide,
   claim_C8_selectionRange egRoot (0, 1) (1, 1) 1 11 (by decide) (by decide) (by decide)⟩
